import Mathlib

/-!
# Verification of the pandas label-index / panel / date-range core

This file shallowly embeds the parts of the repository that the claims
C1-C10 are about:

* `pandas/core/daterange.py` (`XDateRange.__init__`, `XDateRange.__iter__`,
  `DateRange.getCachedRange`),
* `trunk/pandas/core/datetools.py` (the `DateOffset` subclasses `BDay`,
  `Week`, `MonthEnd`, `BMonthEnd`, `BQuarterEnd`, `YearEnd`, `YearBegin`,
  and `rollforward`),
* `pandas/core/panel.py` (`LongPanelIndex.consistent`, `LongPanelIndex.mask`,
  `LongPanel.sort`, `LongPanel.toWide`, `WidePanel.toLong`, `WidePanel.shift`,
  `WidePanel._set_values`, `pivot`, `_slow_pivot`, `group_agg`),
* `trunk/pandas/core/series.py` / `matrix.py` (`reindex`).

Dates are modelled at day granularity (year, month, day); every offset class
involved sets `_normalizeFirst`/`normalize`, so the time-of-day component is
irrelevant to the claims.  Python/numpy integers are modelled as unbounded
integers (`ℕ`/`ℤ`): the one place the source worries about machine width,
`LongPanelIndex.consistent`, explicitly widens to 64-bit before the products
can overflow, so overflow does not occur on any input a real axis can have.
Missing floating-point values (`NaN`, the result of `np.empty` scatter fill)
are modelled as `Option ℚ` with `none` playing the role of a non-finite entry;
`np.isfinite` becomes `Option.isSome`.
-/

/-! ## Gregorian calendar substrate (python `datetime` / `calendar.monthrange`) -/

/-- A calendar date, as the (year, month, day) triple of a `datetime.datetime`
whose time-of-day has been normalized away. -/
structure PDate where
  year : ℕ
  month : ℕ
  day : ℕ
  deriving DecidableEq, Repr

/-- `calendar.isleap`: Gregorian leap-year test. -/
def isLeap (y : ℕ) : Bool :=
  y % 4 == 0 && (y % 100 != 0 || y % 400 == 0)

/-- Second component of `calendar.monthrange(y, m)`: number of days in the
month.  Months outside `1..12` do not occur on valid dates; the table gives
them 31 days so that the function is total. -/
def daysInMonth (y : ℕ) (m : ℕ) : ℕ :=
  match m with
  | 2 => if isLeap y then 29 else 28
  | 4 => 30
  | 6 => 30
  | 9 => 30
  | 11 => 30
  | _ => 31

/-- Days in year `y` strictly before month `m`. -/
def daysBeforeMonth (y : ℕ) (m : ℕ) : ℕ :=
  let l : ℕ := if isLeap y then 1 else 0
  match m with
  | 1 => 0
  | 2 => 31
  | 3 => 59 + l
  | 4 => 90 + l
  | 5 => 120 + l
  | 6 => 151 + l
  | 7 => 181 + l
  | 8 => 212 + l
  | 9 => 243 + l
  | 10 => 273 + l
  | 11 => 304 + l
  | 12 => 334 + l
  | _ => 365 + l

/-- Total number of days in the years `1, 2, ..., y` of the proleptic
Gregorian calendar. -/
def daysBeforeYear (y : ℕ) : ℕ :=
  365 * y + y / 4 - y / 100 + y / 400

/-- Rata-die day number: `toRata ⟨1,1,1⟩ = 1`. -/
def toRata (d : PDate) : ℕ :=
  daysBeforeYear (d.year - 1) + daysBeforeMonth d.year d.month + d.day

/-- `datetime.weekday()`: Monday is `0`, Sunday is `6`. -/
def weekday (d : PDate) : ℕ :=
  (toRata d + 6) % 7

/-- The date is an actual `datetime` value (year at least `MINYEAR = 1`,
month and day in calendar range). -/
def PValid (d : PDate) : Prop :=
  1 ≤ d.year ∧ 1 ≤ d.month ∧ d.month ≤ 12 ∧ 1 ≤ d.day ∧ d.day ≤ daysInMonth d.year d.month

instance (d : PDate) : Decidable (PValid d) := by
  unfold PValid; infer_instance

/-- `timedelta(1)` on a date: the next calendar day. -/
def succD (d : PDate) : PDate :=
  if d.day < daysInMonth d.year d.month then ⟨d.year, d.month, d.day + 1⟩
  else if d.month < 12 then ⟨d.year, d.month + 1, 1⟩
  else ⟨d.year + 1, 1, 1⟩

/-- `timedelta(-1)` on a date: the previous calendar day. -/
def predD (d : PDate) : PDate :=
  if 1 < d.day then ⟨d.year, d.month, d.day - 1⟩
  else if 1 < d.month then ⟨d.year, d.month - 1, daysInMonth d.year (d.month - 1)⟩
  else ⟨d.year - 1, 12, 31⟩

/-- Chronological order on dates (`datetime.__le__`). -/
def dle (a b : PDate) : Prop := toRata a ≤ toRata b

/-- Strict chronological order on dates (`datetime.__lt__`). -/
def dlt (a b : PDate) : Prop := toRata a < toRata b

instance (a b : PDate) : Decidable (dle a b) :=
  inferInstanceAs (Decidable (toRata a ≤ toRata b))
instance (a b : PDate) : Decidable (dlt a b) :=
  inferInstanceAs (Decidable (toRata a < toRata b))

/-- Adding `k` calendar days. -/
def addDays (k : ℕ) (d : PDate) : PDate := succD^[k] d

/-- Subtracting `k` calendar days. -/
def subDays (k : ℕ) (d : PDate) : PDate := predD^[k] d

theorem daysInMonth_pos (y m : ℕ) : 1 ≤ daysInMonth y m := by
  unfold daysInMonth
  split <;> first | omega | split <;> omega

theorem daysInMonth_le (y m : ℕ) : daysInMonth y m ≤ 31 := by
  unfold daysInMonth
  split <;> first | omega | split <;> omega

/-- Cumulative-days identity: passing one month adds that month's length. -/
theorem daysBeforeMonth_succ (y m : ℕ) (h1 : 1 ≤ m) (h2 : m ≤ 12) :
    daysBeforeMonth y (m + 1) = daysBeforeMonth y m + daysInMonth y m := by
  interval_cases m <;>
    simp only [daysBeforeMonth, daysInMonth] <;> split <;> omega

/-- Year-length identity for the leap-count formula. -/
theorem daysBeforeYear_succ (y : ℕ) :
    daysBeforeYear (y + 1) = daysBeforeYear y + (if isLeap (y + 1) then 366 else 365) := by
  simp only [daysBeforeYear, isLeap]
  have e4 : (y + 1) / 4 = y / 4 + if 4 ∣ y + 1 then 1 else 0 := Nat.succ_div y 4
  have e100 : (y + 1) / 100 = y / 100 + if 100 ∣ y + 1 then 1 else 0 := Nat.succ_div y 100
  have e400 : (y + 1) / 400 = y / 400 + if 400 ∣ y + 1 then 1 else 0 := Nat.succ_div y 400
  have d100 : y / 100 ≤ y / 4 := Nat.div_le_div_left (by omega) (by omega)
  have d100s : (y + 1) / 100 ≤ (y + 1) / 4 := Nat.div_le_div_left (by omega) (by omega)
  have m4 : 4 ∣ y + 1 ↔ (y + 1) % 4 = 0 := Nat.dvd_iff_mod_eq_zero
  have m100 : 100 ∣ y + 1 ↔ (y + 1) % 100 = 0 := Nat.dvd_iff_mod_eq_zero
  have m400 : 400 ∣ y + 1 ↔ (y + 1) % 400 = 0 := Nat.dvd_iff_mod_eq_zero
  rw [e4, e100, e400]
  simp only [Bool.and_eq_true, beq_iff_eq, Bool.or_eq_true, bne_iff_ne]
  split <;> split <;> split <;> split <;> omega

/-- Number of days in year `y`. -/
def yearLen (y : ℕ) : ℕ := if isLeap y then 366 else 365

theorem daysBeforeYear_add_yearLen (y : ℕ) (h : 1 ≤ y) :
    daysBeforeYear y = daysBeforeYear (y - 1) + yearLen y := by
  have := daysBeforeYear_succ (y - 1)
  have hy : y - 1 + 1 = y := by omega
  rw [hy] at this
  simpa [yearLen] using this

theorem daysBeforeMonth_add_le (y m : ℕ) (h1 : 1 ≤ m) (h2 : m ≤ 12) :
    daysBeforeMonth y m + daysInMonth y m ≤ yearLen y := by
  unfold yearLen
  interval_cases m <;> simp only [daysBeforeMonth, daysInMonth] <;> split <;> omega

theorem daysBeforeMonth_le_succ (y m : ℕ) (h1 : 1 ≤ m) (h2 : m ≤ 12) :
    daysBeforeMonth y m ≤ daysBeforeMonth y (m + 1) := by
  have := daysBeforeMonth_succ y m h1 h2
  have := daysInMonth_pos y m
  omega

theorem daysBeforeMonth_mono (y : ℕ) :
    ∀ n m : ℕ, 1 ≤ m → m ≤ n → n ≤ 13 → daysBeforeMonth y m ≤ daysBeforeMonth y n := by
  intro n
  induction n with
  | zero => intro m h1 h2 h3; omega
  | succ k ih =>
    intro m h1 h2 h3
    rcases Nat.lt_or_ge m (k + 1) with h | h
    · have hstep := daysBeforeMonth_le_succ y k (by omega) (by omega)
      have hle := ih m h1 (by omega) (by omega)
      omega
    · have he : m = k + 1 := by omega
      subst he
      exact le_refl _

theorem daysBeforeYear_mono : ∀ b a : ℕ, a ≤ b → daysBeforeYear a ≤ daysBeforeYear b := by
  intro b
  induction b with
  | zero =>
    intro a h
    have h0 : a = 0 := by omega
    subst h0
    exact le_refl _
  | succ k ih =>
    intro a h
    rcases Nat.lt_or_ge a (k + 1) with h2 | h2
    · have hs := daysBeforeYear_succ k
      have hle := ih a (by omega)
      split at hs <;> omega
    · have he : a = k + 1 := by omega
      subst he
      exact le_refl _

theorem toRata_bounds (d : PDate) (h : PValid d) :
    daysBeforeYear (d.year - 1) + 1 ≤ toRata d ∧ toRata d ≤ daysBeforeYear d.year := by
  obtain ⟨hy, hm1, hm2, hd1, hd2⟩ := h
  have hb := daysBeforeMonth_add_le d.year d.month hm1 hm2
  have hyl := daysBeforeYear_add_yearLen d.year hy
  unfold toRata
  omega

/-- Lexicographic (field-wise) strict order on dates; this is how python
`datetime` comparison behaves. -/
def lexLt (a b : PDate) : Prop :=
  a.year < b.year ∨ (a.year = b.year ∧
    (a.month < b.month ∨ (a.month = b.month ∧ a.day < b.day)))

theorem PDate.eq_mk (d : PDate) (a b c : ℕ)
    (h1 : d.year = a) (h2 : d.month = b) (h3 : d.day = c) : d = ⟨a, b, c⟩ := by
  cases d
  simp_all

theorem toRata_lt_of_lexLt {a b : PDate} (ha : PValid a) (hb : PValid b)
    (h : lexLt a b) : toRata a < toRata b := by
  obtain ⟨hay, ham1, ham2, had1, had2⟩ := ha
  obtain ⟨hby, hbm1, hbm2, hbd1, hbd2⟩ := hb
  rcases h with h | ⟨hy, h⟩
  · have h1 := (toRata_bounds a ⟨hay, ham1, ham2, had1, had2⟩).2
    have h2 := (toRata_bounds b ⟨hby, hbm1, hbm2, hbd1, hbd2⟩).1
    have h3 : daysBeforeYear a.year ≤ daysBeforeYear (b.year - 1) :=
      daysBeforeYear_mono _ _ (by omega)
    omega
  · rcases h with h | ⟨hm, hd⟩
    · have h1 := daysBeforeMonth_succ a.year a.month ham1 ham2
      have h2 : daysBeforeMonth a.year (a.month + 1) ≤ daysBeforeMonth a.year b.month :=
        daysBeforeMonth_mono a.year _ _ (by omega) (by omega) (by omega)
      unfold toRata
      rw [← hy]
      omega
    · unfold toRata
      rw [← hy, ← hm]
      omega

theorem lexLt_trichotomy (a b : PDate) :
    lexLt a b ∨ a = b ∨ lexLt b a := by
  unfold lexLt
  rcases a with ⟨ay, am, ad⟩
  rcases b with ⟨cy, cm, cd⟩
  simp only [PDate.mk.injEq]
  omega

theorem toRata_lt_iff_lexLt {a b : PDate} (ha : PValid a) (hb : PValid b) :
    toRata a < toRata b ↔ lexLt a b := by
  constructor
  · intro h
    rcases lexLt_trichotomy a b with h2 | h2 | h2
    · exact h2
    · subst h2; omega
    · have := toRata_lt_of_lexLt hb ha h2
      omega
  · exact toRata_lt_of_lexLt ha hb

theorem toRata_inj {a b : PDate} (ha : PValid a) (hb : PValid b)
    (h : toRata a = toRata b) : a = b := by
  rcases lexLt_trichotomy a b with h2 | h2 | h2
  · have := toRata_lt_of_lexLt ha hb h2
    omega
  · exact h2
  · have := toRata_lt_of_lexLt hb ha h2
    omega

theorem daysBeforeMonth_twelve (y : ℕ) :
    daysBeforeMonth y 12 = 334 + (if isLeap y then 1 else 0) := rfl

theorem daysInMonth_twelve (y : ℕ) : daysInMonth y 12 = 31 := rfl

theorem daysBeforeMonth_one (y : ℕ) : daysBeforeMonth y 1 = 0 := rfl

theorem daysInMonth_one (y : ℕ) : daysInMonth y 1 = 31 := rfl

theorem daysBeforeMonth_twelve_yearLen (y : ℕ) :
    daysBeforeMonth y 12 + 31 = yearLen y := by
  rw [daysBeforeMonth_twelve]
  unfold yearLen
  split <;> omega

theorem rata_succD (d : PDate) (h : PValid d) :
    toRata (succD d) = toRata d + 1 := by
  obtain ⟨hy, hm1, hm2, hd1, hd2⟩ := h
  unfold succD toRata
  split
  · dsimp only
    omega
  · split
    · have := daysBeforeMonth_succ d.year d.month hm1 hm2
      dsimp only
      omega
    · have hm12 : d.month = 12 := by omega
      have h334 := daysBeforeMonth_twelve_yearLen d.year
      have hyl := daysBeforeYear_add_yearLen d.year (by omega)
      have hdd : daysInMonth d.year d.month = 31 := by
        rw [hm12]; exact daysInMonth_twelve _
      dsimp only
      rw [daysBeforeMonth_one, hm12]
      simp only [Nat.add_sub_cancel]
      omega

theorem valid_succD (d : PDate) (h : PValid d) : PValid (succD d) := by
  obtain ⟨hy, hm1, hm2, hd1, hd2⟩ := h
  unfold succD PValid
  split
  · dsimp only
    omega
  · split
    · have := daysInMonth_pos d.year (d.month + 1)
      dsimp only
      omega
    · have h31 := daysInMonth_one (d.year + 1)
      dsimp only
      omega

theorem rata_predD (d : PDate) (h : PValid d) (h2 : d ≠ ⟨1, 1, 1⟩) :
    toRata (predD d) + 1 = toRata d := by
  obtain ⟨hy, hm1, hm2, hd1, hd2⟩ := h
  unfold predD toRata
  split
  · dsimp only
    omega
  · split
    · have hs := daysBeforeMonth_succ d.year (d.month - 1) (by omega) (by omega)
      have hmm : d.month - 1 + 1 = d.month := by omega
      rw [hmm] at hs
      dsimp only
      omega
    · have hm : d.month = 1 := by omega
      have hd : d.day = 1 := by omega
      have hyy : 2 ≤ d.year := by
        by_contra hcon
        exact h2 (PDate.eq_mk d 1 1 1 (by omega) (by omega) (by omega))
      have h334 := daysBeforeMonth_twelve_yearLen (d.year - 1)
      have h31 := daysInMonth_twelve (d.year - 1)
      have hyl := daysBeforeYear_add_yearLen (d.year - 1) (by omega)
      dsimp only
      rw [hm, hd, daysBeforeMonth_one]
      omega

theorem valid_predD (d : PDate) (h : PValid d) (h2 : d ≠ ⟨1, 1, 1⟩) :
    PValid (predD d) := by
  obtain ⟨hy, hm1, hm2, hd1, hd2⟩ := h
  unfold predD PValid
  split
  · dsimp only
    omega
  · split
    · have := daysInMonth_pos d.year (d.month - 1)
      dsimp only
      omega
    · have hm : d.month = 1 := by omega
      have hd : d.day = 1 := by omega
      have hyy : 2 ≤ d.year := by
        by_contra hcon
        exact h2 (PDate.eq_mk d 1 1 1 (by omega) (by omega) (by omega))
      have h31 := daysInMonth_twelve (d.year - 1)
      dsimp only
      omega

theorem weekday_lt (d : PDate) : weekday d < 7 := by
  unfold weekday
  omega

theorem weekday_succD (d : PDate) (h : PValid d) :
    weekday (succD d) = (weekday d + 1) % 7 := by
  unfold weekday
  rw [rata_succD d h]
  omega

theorem weekday_predD (d : PDate) (h : PValid d) (h2 : d ≠ ⟨1, 1, 1⟩) :
    weekday (predD d) = (weekday d + 6) % 7 := by
  unfold weekday
  have := rata_predD d h h2
  omega

theorem valid_addDays (k : ℕ) (d : PDate) (h : PValid d) : PValid (addDays k d) := by
  induction k with
  | zero => exact h
  | succ n ih =>
    unfold addDays at ih ⊢
    rw [Function.iterate_succ_apply']
    exact valid_succD _ ih

theorem rata_addDays (k : ℕ) (d : PDate) (h : PValid d) :
    toRata (addDays k d) = toRata d + k := by
  induction k with
  | zero => rfl
  | succ n ih =>
    have hv := valid_addDays n d h
    unfold addDays at ih hv ⊢
    rw [Function.iterate_succ_apply', rata_succD _ hv, ih]
    omega

theorem weekday_addDays (k : ℕ) (d : PDate) (h : PValid d) :
    weekday (addDays k d) = (weekday d + k) % 7 := by
  unfold weekday
  rw [rata_addDays k d h]
  omega

theorem addDays_one (d : PDate) : addDays 1 d = succD d := rfl

theorem subDays_one (d : PDate) : subDays 1 d = predD d := rfl

/-! ## Date offsets (`trunk/pandas/core/datetools.py`)

`BDay.apply` walks day by day:

    while n != 0:
        result = result + timedelta(n/abs(n))
        if result.weekday() < 5:
            n -= n/abs(n)

The walk is embedded with explicit fuel (`7 * (|n| + 1)` steps always
suffice: every window of three consecutive days contains a weekday). -/

/-- The forward `BDay.apply` loop; `n` is the remaining number of business
days, the first argument is fuel. -/
def bdayFwd : ℕ → ℕ → PDate → PDate
  | 0, _, d => d
  | f + 1, n, d =>
    if n = 0 then d
    else
      let d2 := succD d
      bdayFwd f (if weekday d2 < 5 then n - 1 else n) d2

/-- The backward `BDay.apply` loop (negative `n`, counted here as `|n|`). -/
def bdayBwd : ℕ → ℕ → PDate → PDate
  | 0, _, d => d
  | f + 1, n, d =>
    if n = 0 then d
    else
      let d2 := predD d
      bdayBwd f (if weekday d2 < 5 then n - 1 else n) d2

/-- `BDay.apply` for a multiplier `n` (`self.n`), including the
`if n == 0 and other.weekday() > 4: n = 1` special case. -/
def bdayApply (n : ℤ) (d : PDate) : PDate :=
  let m : ℤ := if n = 0 ∧ 4 < weekday d then 1 else n
  if 0 ≤ m then bdayFwd (7 * (m.toNat + 1)) m.toNat d
  else bdayBwd (7 * (m.natAbs + 1)) m.natAbs d

/-- Closed form of one forward iteration of the loop: the next strictly
later weekday. -/
def nwd (d : PDate) : PDate :=
  if weekday d = 4 then addDays 3 d
  else if weekday d = 5 then addDays 2 d
  else addDays 1 d

/-- Closed form of one backward iteration: the previous strictly earlier
weekday. -/
def pwd (d : PDate) : PDate :=
  if weekday d = 0 then subDays 3 d
  else if weekday d = 6 then subDays 2 d
  else subDays 1 d

theorem bdayFwd_zero (f : ℕ) (d : PDate) : bdayFwd f 0 d = d := by
  cases f <;> simp [bdayFwd]

theorem valid_nwd (d : PDate) (h : PValid d) : PValid (nwd d) := by
  unfold nwd
  split
  · exact valid_addDays 3 d h
  · split
    · exact valid_addDays 2 d h
    · exact valid_addDays 1 d h

theorem rata_nwd (d : PDate) (h : PValid d) :
    toRata d < toRata (nwd d) ∧ toRata (nwd d) ≤ toRata d + 3 := by
  unfold nwd
  split
  · rw [rata_addDays 3 d h]; omega
  · split
    · rw [rata_addDays 2 d h]; omega
    · rw [rata_addDays 1 d h]; omega

theorem weekday_nwd (d : PDate) (h : PValid d) : weekday (nwd d) < 5 := by
  unfold nwd
  have h7 := weekday_lt d
  split
  · rw [weekday_addDays 3 d h]
    omega
  · split
    · rw [weekday_addDays 2 d h]
      omega
    · rw [weekday_addDays 1 d h]
      rcases Nat.lt_or_ge (weekday d) 4 with h2 | h2
      · omega
      · have : weekday d = 6 := by omega
        omega

/-- Fuel-independence and closed form of the forward business-day loop:
with at least `3 n` fuel the loop computes `n` iterations of `nwd`. -/
theorem bdayFwd_eq_iter :
    ∀ n f : ℕ, ∀ d : PDate, PValid d → 3 * n ≤ f →
      bdayFwd f n d = nwd^[n] d := by
  intro n
  induction n with
  | zero =>
    intro f d _ _
    rw [bdayFwd_zero]
    rfl
  | succ k ih =>
    intro f d hd hf
    have h7 := weekday_lt d
    have hv1 := valid_succD d hd
    have hw1 := weekday_succD d hd
    rcases Nat.lt_or_ge (weekday d) 4 with hw | hw
    · -- Mon..Thu: one step reaches the next weekday
      obtain ⟨g, rfl⟩ : ∃ g, f = g + 1 := ⟨f - 1, by omega⟩
      have hc1 : weekday (succD d) < 5 := by rw [hw1]; omega
      have hnw : nwd d = succD d := by
        unfold nwd
        rw [if_neg (by omega), if_neg (by omega), addDays_one]
      simp only [bdayFwd, if_neg (Nat.succ_ne_zero k)]
      rw [if_pos hc1]
      simp only [Nat.add_sub_cancel]
      rw [Function.iterate_succ_apply, hnw]
      exact ih g (succD d) hv1 (by omega)
    · rcases Nat.lt_or_ge (weekday d) 5 with hw2 | hw2
      · -- Friday: three steps
        have hw4 : weekday d = 4 := by omega
        obtain ⟨g, rfl⟩ : ∃ g, f = g + 3 := ⟨f - 3, by omega⟩
        have hv2 := valid_succD _ hv1
        have hv3 := valid_succD _ hv2
        have hw2' := weekday_succD _ hv1
        have hw3' := weekday_succD _ hv2
        have hc1 : ¬ (weekday (succD d) < 5) := by rw [hw1]; omega
        have hc2 : ¬ (weekday (succD (succD d)) < 5) := by rw [hw2', hw1]; omega
        have hc3 : weekday (succD (succD (succD d))) < 5 := by
          rw [hw3', hw2', hw1]; omega
        have hnw : nwd d = succD (succD (succD d)) := by
          unfold nwd
          rw [if_pos hw4]
          rfl
        simp only [bdayFwd, if_neg (Nat.succ_ne_zero k)]
        rw [if_neg hc1]
        simp only [bdayFwd, if_neg (Nat.succ_ne_zero k)]
        rw [if_neg hc2]
        simp only [bdayFwd, if_neg (Nat.succ_ne_zero k)]
        rw [if_pos hc3]
        simp only [Nat.add_sub_cancel]
        rw [Function.iterate_succ_apply, hnw]
        exact ih g _ hv3 (by omega)
      · rcases Nat.lt_or_ge (weekday d) 6 with hw3 | hw3
        · -- Saturday: two steps
          have hw5 : weekday d = 5 := by omega
          obtain ⟨g, rfl⟩ : ∃ g, f = g + 2 := ⟨f - 2, by omega⟩
          have hv2 := valid_succD _ hv1
          have hw2' := weekday_succD _ hv1
          have hc1 : ¬ (weekday (succD d) < 5) := by rw [hw1]; omega
          have hc2 : weekday (succD (succD d)) < 5 := by rw [hw2', hw1]; omega
          have hnw : nwd d = succD (succD d) := by
            unfold nwd
            rw [if_neg (by omega), if_pos hw5]
            rfl
          simp only [bdayFwd, if_neg (Nat.succ_ne_zero k)]
          rw [if_neg hc1]
          simp only [bdayFwd, if_neg (Nat.succ_ne_zero k)]
          rw [if_pos hc2]
          simp only [Nat.add_sub_cancel]
          rw [Function.iterate_succ_apply, hnw]
          exact ih g _ hv2 (by omega)
        · -- Sunday: one step
          have hw6 : weekday d = 6 := by omega
          obtain ⟨g, rfl⟩ : ∃ g, f = g + 1 := ⟨f - 1, by omega⟩
          have hc1 : weekday (succD d) < 5 := by rw [hw1]; omega
          have hnw : nwd d = succD d := by
            unfold nwd
            rw [if_neg (by omega), if_neg (by omega), addDays_one]
          simp only [bdayFwd, if_neg (Nat.succ_ne_zero k)]
          rw [if_pos hc1]
          simp only [Nat.add_sub_cancel]
          rw [Function.iterate_succ_apply, hnw]
          exact ih g _ hv1 (by omega)

theorem toRata_min_date (d : PDate) (h : 2 ≤ toRata d) : d ≠ ⟨1, 1, 1⟩ := by
  intro he
  subst he
  simp [toRata, daysBeforeYear, daysBeforeMonth] at h

theorem valid_pwd (d : PDate) (hd : PValid d) (hr : 4 ≤ toRata d) :
    PValid (pwd d) := by
  have hne1 : d ≠ ⟨1, 1, 1⟩ := toRata_min_date d (by omega)
  have hv1 := valid_predD d hd hne1
  have hr1 := rata_predD d hd hne1
  have hne2 : predD d ≠ ⟨1, 1, 1⟩ := toRata_min_date _ (by omega)
  have hv2 := valid_predD _ hv1 hne2
  have hr2 := rata_predD _ hv1 hne2
  have hne3 : predD (predD d) ≠ ⟨1, 1, 1⟩ := toRata_min_date _ (by omega)
  have hv3 := valid_predD _ hv2 hne3
  unfold pwd
  split
  · exact hv3
  · split
    · exact hv2
    · exact hv1

theorem rata_pwd (d : PDate) (hd : PValid d) (hr : 4 ≤ toRata d) :
    toRata d - 3 ≤ toRata (pwd d) ∧ toRata (pwd d) < toRata d := by
  have hne1 : d ≠ ⟨1, 1, 1⟩ := toRata_min_date d (by omega)
  have hv1 := valid_predD d hd hne1
  have hr1 := rata_predD d hd hne1
  have hne2 : predD d ≠ ⟨1, 1, 1⟩ := toRata_min_date _ (by omega)
  have hv2 := valid_predD _ hv1 hne2
  have hr2 := rata_predD _ hv1 hne2
  have hne3 : predD (predD d) ≠ ⟨1, 1, 1⟩ := toRata_min_date _ (by omega)
  have hr3 := rata_predD _ hv2 hne3
  unfold pwd
  split
  · rw [show subDays 3 d = predD (predD (predD d)) from rfl]
    omega
  · split
    · rw [show subDays 2 d = predD (predD d) from rfl]
      omega
    · rw [subDays_one]
      omega

theorem weekday_pwd (d : PDate) (hd : PValid d) (hr : 4 ≤ toRata d) :
    weekday (pwd d) < 5 := by
  have h7 := weekday_lt d
  have hne1 : d ≠ ⟨1, 1, 1⟩ := toRata_min_date d (by omega)
  have hv1 := valid_predD d hd hne1
  have hr1 := rata_predD d hd hne1
  have hw1 := weekday_predD d hd hne1
  have hne2 : predD d ≠ ⟨1, 1, 1⟩ := toRata_min_date _ (by omega)
  have hv2 := valid_predD _ hv1 hne2
  have hr2 := rata_predD _ hv1 hne2
  have hw2 := weekday_predD _ hv1 hne2
  have hne3 : predD (predD d) ≠ ⟨1, 1, 1⟩ := toRata_min_date _ (by omega)
  have hw3 := weekday_predD _ hv2 hne3
  unfold pwd
  split
  · rw [show subDays 3 d = predD (predD (predD d)) from rfl, hw3, hw2, hw1]
    omega
  · split
    · rw [show subDays 2 d = predD (predD d) from rfl, hw2, hw1]
      omega
    · rw [subDays_one, hw1]
      omega

theorem bdayBwd_zero (f : ℕ) (d : PDate) : bdayBwd f 0 d = d := by
  cases f <;> simp [bdayBwd]

/-- The backward loop with `n = 1` and enough fuel computes `pwd`. -/
theorem bdayBwd_one (f : ℕ) (d : PDate) (hd : PValid d) (hr : 4 ≤ toRata d)
    (hf : 3 ≤ f) : bdayBwd f 1 d = pwd d := by
  have h7 := weekday_lt d
  have hne1 : d ≠ ⟨1, 1, 1⟩ := toRata_min_date d (by omega)
  have hv1 := valid_predD d hd hne1
  have hr1 := rata_predD d hd hne1
  have hw1 := weekday_predD d hd hne1
  have hne2 : predD d ≠ ⟨1, 1, 1⟩ := toRata_min_date _ (by omega)
  have hv2 := valid_predD _ hv1 hne2
  have hr2 := rata_predD _ hv1 hne2
  have hw2 := weekday_predD _ hv1 hne2
  have hne3 : predD (predD d) ≠ ⟨1, 1, 1⟩ := toRata_min_date _ (by omega)
  have hw3 := weekday_predD _ hv2 hne3
  rcases Nat.lt_or_ge (weekday d) 1 with hw | hw
  · -- Monday: three backward steps
    have hw0 : weekday d = 0 := by omega
    obtain ⟨g, rfl⟩ : ∃ g, f = g + 3 := ⟨f - 3, by omega⟩
    have hc1 : ¬ (weekday (predD d) < 5) := by rw [hw1, hw0]; omega
    have hc2 : ¬ (weekday (predD (predD d)) < 5) := by rw [hw2, hw1, hw0]; omega
    have hc3 : weekday (predD (predD (predD d))) < 5 := by
      rw [hw3, hw2, hw1, hw0]; omega
    simp only [bdayBwd, if_neg (Nat.one_ne_zero)]
    rw [if_neg hc1]
    simp only [bdayBwd, if_neg (Nat.one_ne_zero)]
    rw [if_neg hc2]
    simp only [bdayBwd, if_neg (Nat.one_ne_zero)]
    rw [if_pos hc3]
    simp only [Nat.sub_self]
    rw [bdayBwd_zero]
    unfold pwd
    rw [if_pos hw0]
    rfl
  · rcases Nat.lt_or_ge (weekday d) 6 with hw6 | hw6
    · -- Tuesday..Saturday: one backward step
      obtain ⟨g, rfl⟩ : ∃ g, f = g + 1 := ⟨f - 1, by omega⟩
      have hc1 : weekday (predD d) < 5 := by rw [hw1]; omega
      simp only [bdayBwd, if_neg (Nat.one_ne_zero)]
      rw [if_pos hc1]
      simp only [Nat.sub_self]
      rw [bdayBwd_zero]
      unfold pwd
      rw [if_neg (by omega), if_neg (by omega), subDays_one]
    · -- Sunday: two backward steps
      have hwS : weekday d = 6 := by omega
      obtain ⟨g, rfl⟩ : ∃ g, f = g + 2 := ⟨f - 2, by omega⟩
      have hc1 : ¬ (weekday (predD d) < 5) := by rw [hw1, hwS]; omega
      have hc2 : weekday (predD (predD d)) < 5 := by rw [hw2, hw1, hwS]; omega
      simp only [bdayBwd, if_neg (Nat.one_ne_zero)]
      rw [if_neg hc1]
      simp only [bdayBwd, if_neg (Nat.one_ne_zero)]
      rw [if_pos hc2]
      simp only [Nat.sub_self]
      rw [bdayBwd_zero]
      unfold pwd
      rw [if_neg (by omega), if_pos hwS]
      rfl

theorem bdayApply_pos (n : ℤ) (hn : 0 < n) (d : PDate) (hd : PValid d) :
    bdayApply n d = nwd^[n.toNat] d := by
  have h1 : ¬ (n = 0 ∧ 4 < weekday d) := fun hq => absurd hq.1 (by omega)
  simp only [bdayApply]
  rw [if_neg h1, if_pos (by omega : (0 : ℤ) ≤ n)]
  exact bdayFwd_eq_iter n.toNat _ d hd (by omega)

theorem bdayApply_zero_on (d : PDate) (hw : weekday d < 5) :
    bdayApply 0 d = d := by
  have h1 : ¬ (True ∧ 4 < weekday d) := fun hq => absurd hq.2 (by omega)
  simp only [bdayApply]
  rw [if_neg h1, if_pos (by omega : (0 : ℤ) ≤ 0)]
  exact bdayFwd_zero _ _

theorem bdayApply_zero_off (d : PDate) (hd : PValid d) (hw : 4 < weekday d) :
    bdayApply 0 d = nwd d := by
  have h1 : (True ∧ 4 < weekday d) := ⟨trivial, hw⟩
  simp only [bdayApply]
  rw [if_pos h1, if_pos (by omega : (0 : ℤ) ≤ 1)]
  have he := bdayFwd_eq_iter (Int.toNat 1) (7 * (Int.toNat 1 + 1)) d hd (by omega)
  rw [he]
  rfl

theorem bdayApply_neg_one (d : PDate) (hd : PValid d) (hr : 4 ≤ toRata d) :
    bdayApply (-1) d = pwd d := by
  have h1 : ¬ ((-1 : ℤ) = 0 ∧ 4 < weekday d) := fun hq => absurd hq.1 (by omega)
  simp only [bdayApply]
  rw [if_neg h1, if_neg (by omega : ¬ (0 : ℤ) ≤ -1)]
  exact bdayBwd_one _ d hd hr (by norm_num)

theorem valid_nwd_iter (k : ℕ) (d : PDate) (h : PValid d) : PValid (nwd^[k] d) := by
  induction k with
  | zero => exact h
  | succ n ih =>
    rw [Function.iterate_succ_apply']
    exact valid_nwd _ ih

theorem rata_nwd_iter (k : ℕ) (d : PDate) (h : PValid d) :
    toRata d + k ≤ toRata (nwd^[k] d) ∧ toRata (nwd^[k] d) ≤ toRata d + 3 * k := by
  induction k with
  | zero => simp
  | succ n ih =>
    rw [Function.iterate_succ_apply']
    have hv := valid_nwd_iter n d h
    have := rata_nwd _ hv
    omega

theorem weekday_nwd_iter (k : ℕ) (d : PDate) (h : PValid d) (hk : 1 ≤ k) :
    weekday (nwd^[k] d) < 5 := by
  obtain ⟨g, rfl⟩ : ∃ g, k = g + 1 := ⟨k - 1, by omega⟩
  rw [Function.iterate_succ_apply']
  exact weekday_nwd _ (valid_nwd_iter g d h)

theorem daysInMonth_ge (y m : ℕ) (h1 : 1 ≤ m) (h2 : m ≤ 12) :
    28 ≤ daysInMonth y m := by
  interval_cases m <;> simp only [daysInMonth] <;> first | omega | split <;> omega

/-! ## Month arithmetic (`dateutil.relativedelta` with `day=31`) -/

/-- Linear month index: the month `(y, m)` is month number `12 y + (m - 1)`. -/
def monthIdx (d : PDate) : ℕ := 12 * d.year + (d.month - 1)

/-- The last calendar day of the month with linear index `t`. -/
def monthEndOfIdx (t : ℕ) : PDate :=
  ⟨t / 12, t % 12 + 1, daysInMonth (t / 12) (t % 12 + 1)⟩

/-- `other + relativedelta(months=k, day=31)`: shift by `k` months and clamp
the day to the end of the resulting month. -/
def monthShiftLast (k : ℤ) (d : PDate) : PDate :=
  monthEndOfIdx ((monthIdx d : ℤ) + k).toNat

theorem monthIdx_monthEndOfIdx (t : ℕ) : monthIdx (monthEndOfIdx t) = t := by
  unfold monthIdx monthEndOfIdx
  dsimp only
  omega

theorem valid_monthEndOfIdx (t : ℕ) (h : 12 ≤ t) : PValid (monthEndOfIdx t) := by
  unfold monthEndOfIdx PValid
  dsimp only
  refine ⟨by omega, by omega, by omega, daysInMonth_pos _ _, le_refl _⟩

theorem lexLt_monthEndOfIdx {t1 t2 : ℕ} (h : t1 < t2) :
    lexLt (monthEndOfIdx t1) (monthEndOfIdx t2) := by
  unfold lexLt monthEndOfIdx
  dsimp only
  omega

theorem monthEndOfIdx_monthIdx (d : PDate) (hm1 : 1 ≤ d.month) (hm2 : d.month ≤ 12) :
    monthEndOfIdx (monthIdx d) = ⟨d.year, d.month, daysInMonth d.year d.month⟩ := by
  unfold monthEndOfIdx monthIdx
  have h1 : (12 * d.year + (d.month - 1)) / 12 = d.year := by omega
  have h2 : (12 * d.year + (d.month - 1)) % 12 + 1 = d.month := by omega
  rw [h1, h2]

theorem lexLt_of_monthIdx_lt (d : PDate) (t : ℕ) (hm1 : 1 ≤ d.month)
    (hm2 : d.month ≤ 12) (h : monthIdx d < t) : lexLt d (monthEndOfIdx t) := by
  unfold lexLt monthEndOfIdx monthIdx at *
  dsimp only
  omega

/-! ## Business end-of-month (`calendar.monthrange`-based `lastBDay`) -/

/-- `lastBDay = nDaysInMonth - max(((wkday + nDaysInMonth - 1) % 7) - 4, 0)`
where `wkday` is the weekday of the first of the month (`calendar.monthrange`).
Natural subtraction supplies the `max(..., 0)`. -/
def lastBDay (y m : ℕ) : ℕ :=
  daysInMonth y m - ((weekday ⟨y, m, 1⟩ + daysInMonth y m - 1) % 7 - 4)

/-- The last business day of month `(y, m)` as a date. -/
def lastBDayDate (y m : ℕ) : PDate := ⟨y, m, lastBDay y m⟩

/-- `if other.weekday() > 4: other = other - BDay()` -/
def weekendAdj (d : PDate) : PDate :=
  if 4 < weekday d then bdayApply (-1) d else d

theorem weekday_day_eq (y m k : ℕ) (hk : 1 ≤ k) :
    weekday ⟨y, m, k⟩ = (weekday ⟨y, m, 1⟩ + (k - 1)) % 7 := by
  unfold weekday toRata
  dsimp only
  omega

theorem lastBDay_bounds (y m : ℕ) (h1 : 1 ≤ m) (h2 : m ≤ 12) :
    daysInMonth y m - 2 ≤ lastBDay y m ∧ lastBDay y m ≤ daysInMonth y m ∧
      26 ≤ lastBDay y m := by
  have h28 := daysInMonth_ge y m h1 h2
  unfold lastBDay
  omega

theorem weekday_lastBDayDate (y m : ℕ) (h1 : 1 ≤ m) (h2 : m ≤ 12) :
    weekday (lastBDayDate y m) < 5 := by
  have h28 := daysInMonth_ge y m h1 h2
  have hb := lastBDay_bounds y m h1 h2
  unfold lastBDayDate
  rw [weekday_day_eq y m _ (by omega)]
  unfold lastBDay
  omega

/-- One-day decrement inside a month needs no calendar borrowing. -/
theorem predD_day (d : PDate) (h : 1 < d.day) :
    predD d = ⟨d.year, d.month, d.day - 1⟩ := by
  unfold predD
  rw [if_pos h]

theorem rata_predD_day (d : PDate) (h : 1 < d.day) :
    toRata (predD d) + 1 = toRata d := by
  rw [predD_day d h]
  unfold toRata
  dsimp only
  omega

theorem weekday_predD_day (d : PDate) (h : 1 < d.day) :
    weekday (predD d) = (weekday d + 6) % 7 := by
  unfold weekday
  have := rata_predD_day d h
  omega

/-- The backward loop with `n = 1`, staying inside the month: if the day
of the month is at least 4, the result is `pwd` and no month borrow
happens.  No validity of the date is needed. -/
theorem bdayBwd_one_inMonth (f : ℕ) (d : PDate) (hd4 : 4 ≤ d.day)
    (hf : 3 ≤ f) : bdayBwd f 1 d = pwd d := by
  have h7 := weekday_lt d
  have hp1 := predD_day d (by omega)
  have hd1 : (predD d).day = d.day - 1 := by rw [hp1]
  have hw1 := weekday_predD_day d (by omega)
  have hp2 := predD_day (predD d) (by omega)
  have hd2 : (predD (predD d)).day = d.day - 2 := by
    rw [hp2, hd1]
    dsimp only
    omega
  have hw2 := weekday_predD_day (predD d) (by omega)
  have hp3 := predD_day (predD (predD d)) (by omega)
  have hw3 := weekday_predD_day (predD (predD d)) (by omega)
  rcases Nat.lt_or_ge (weekday d) 1 with hw | hw
  · -- Monday: three backward steps
    have hw0 : weekday d = 0 := by omega
    obtain ⟨g, rfl⟩ : ∃ g, f = g + 3 := ⟨f - 3, by omega⟩
    have hc1 : ¬ (weekday (predD d) < 5) := by rw [hw1, hw0]; omega
    have hc2 : ¬ (weekday (predD (predD d)) < 5) := by rw [hw2, hw1, hw0]; omega
    have hc3 : weekday (predD (predD (predD d))) < 5 := by
      rw [hw3, hw2, hw1, hw0]; omega
    simp only [bdayBwd, if_neg (Nat.one_ne_zero)]
    rw [if_neg hc1]
    simp only [bdayBwd, if_neg (Nat.one_ne_zero)]
    rw [if_neg hc2]
    simp only [bdayBwd, if_neg (Nat.one_ne_zero)]
    rw [if_pos hc3]
    simp only [Nat.sub_self]
    rw [bdayBwd_zero]
    unfold pwd
    rw [if_pos hw0]
    rfl
  · rcases Nat.lt_or_ge (weekday d) 6 with hw6 | hw6
    · -- Tuesday..Saturday: one backward step
      obtain ⟨g, rfl⟩ : ∃ g, f = g + 1 := ⟨f - 1, by omega⟩
      have hc1 : weekday (predD d) < 5 := by rw [hw1]; omega
      simp only [bdayBwd, if_neg (Nat.one_ne_zero)]
      rw [if_pos hc1]
      simp only [Nat.sub_self]
      rw [bdayBwd_zero]
      unfold pwd
      rw [if_neg (by omega), if_neg (by omega), subDays_one]
    · -- Sunday: two backward steps
      have hwS : weekday d = 6 := by omega
      obtain ⟨g, rfl⟩ : ∃ g, f = g + 2 := ⟨f - 2, by omega⟩
      have hc1 : ¬ (weekday (predD d) < 5) := by rw [hw1, hwS]; omega
      have hc2 : weekday (predD (predD d)) < 5 := by rw [hw2, hw1, hwS]; omega
      simp only [bdayBwd, if_neg (Nat.one_ne_zero)]
      rw [if_neg hc1]
      simp only [bdayBwd, if_neg (Nat.one_ne_zero)]
      rw [if_pos hc2]
      simp only [Nat.sub_self]
      rw [bdayBwd_zero]
      unfold pwd
      rw [if_neg (by omega), if_pos hwS]
      rfl

theorem bdayApply_neg_one_inMonth (d : PDate) (hd4 : 4 ≤ d.day) :
    bdayApply (-1) d = pwd d := by
  have h1 : ¬ ((-1 : ℤ) = 0 ∧ 4 < weekday d) := fun hq => absurd hq.1 (by omega)
  simp only [bdayApply]
  rw [if_neg h1, if_neg (by omega : ¬ (0 : ℤ) ≤ -1)]
  exact bdayBwd_one_inMonth _ d hd4 (by norm_num)

/-- Rolling the last calendar day of a month back over the weekend lands
exactly on `lastBDay`; holds for any year value (also the out-of-calendar
year 0 that intermediate computations may produce). -/
theorem weekendAdj_monthEnd (y m : ℕ) (h1 : 1 ≤ m) (h2 : m ≤ 12) :
    weekendAdj ⟨y, m, daysInMonth y m⟩ = lastBDayDate y m := by
  have h28 := daysInMonth_ge y m h1 h2
  have hwd := weekday_day_eq y m (daysInMonth y m) (by omega)
  have h7 : weekday (⟨y, m, 1⟩ : PDate) < 7 := weekday_lt _
  have h7b : weekday (⟨y, m, daysInMonth y m⟩ : PDate) < 7 := weekday_lt _
  have hp1 : predD ⟨y, m, daysInMonth y m⟩ = ⟨y, m, daysInMonth y m - 1⟩ := by
    rw [predD_day _ (by dsimp only; omega)]
  have hp2 : predD ⟨y, m, daysInMonth y m - 1⟩ = ⟨y, m, daysInMonth y m - 2⟩ := by
    rw [predD_day _ (by dsimp only; omega)]
    simp only [PDate.mk.injEq, true_and, and_true]
    omega
  unfold weekendAdj
  split
  next hgt =>
    rw [bdayApply_neg_one_inMonth _ (by dsimp only; omega)]
    unfold pwd
    have hc0 : ¬ (weekday (⟨y, m, daysInMonth y m⟩ : PDate) = 0) := by omega
    rw [if_neg hc0]
    rcases Nat.lt_or_ge (weekday ⟨y, m, daysInMonth y m⟩) 6 with hc | hc
    · have hc6 : ¬ (weekday (⟨y, m, daysInMonth y m⟩ : PDate) = 6) := by omega
      rw [if_neg hc6, subDays_one, hp1]
      have h5 : weekday (⟨y, m, daysInMonth y m⟩ : PDate) = 5 := by omega
      rw [hwd] at h5
      unfold lastBDayDate lastBDay
      simp only [PDate.mk.injEq, true_and, and_true]
      omega
    · have hc6 : weekday (⟨y, m, daysInMonth y m⟩ : PDate) = 6 := by omega
      rw [if_pos hc6]
      rw [show subDays 2 (⟨y, m, daysInMonth y m⟩ : PDate)
            = predD (predD ⟨y, m, daysInMonth y m⟩) from rfl, hp1, hp2]
      rw [hwd] at hc6
      unfold lastBDayDate lastBDay
      simp only [PDate.mk.injEq, true_and, and_true]
      omega
  next hle =>
    rw [hwd] at hle
    unfold lastBDayDate lastBDay
    simp only [PDate.mk.injEq, true_and, and_true]
    omega

/-! ## The DateOffset subclasses -/

/-- `MonthEnd.apply`. -/
def monthEndApply (n : ℤ) (d : PDate) : PDate :=
  if d.day ≠ daysInMonth d.year d.month then
    monthShiftLast (if n ≤ 0 then n + 1 else n) (monthShiftLast (-1) d)
  else monthShiftLast n d

/-- `BMonthEnd.apply`. -/
def bmonthEndApply (n : ℤ) (d : PDate) : PDate :=
  let L := lastBDay d.year d.month
  let n2 : ℤ :=
    if 0 < n ∧ ¬ (L ≤ d.day) then n - 1
    else if n ≤ 0 ∧ L < d.day then n + 1
    else n
  weekendAdj (monthShiftLast n2 d)

/-- `monthsToGo` of `BQuarterEnd.apply`:
`3 - ((other.month - startingMonth) % 3)`, reset to `0` when it is `3`. -/
def qtrMtg (sm : ℕ) (d : PDate) : ℤ :=
  let mtg0 : ℤ := 3 - ((d.month : ℤ) - sm) % 3
  if mtg0 = 3 then 0 else mtg0

/-- `BQuarterEnd.apply`. -/
def bquarterEndApply (n : ℤ) (sm : ℕ) (d : PDate) : PDate :=
  let L := lastBDay d.year d.month
  let n2 : ℤ :=
    if 0 < n ∧ ¬ (L ≤ d.day ∧ qtrMtg sm d = 0) then n - 1
    else if n ≤ 0 ∧ L < d.day ∧ qtrMtg sm d = 0 then n + 1
    else n
  weekendAdj (monthShiftLast (qtrMtg sm d + 3 * n2) d)

/-- `other + relativedelta(years=n)` (month and day kept; only applied to
dates like Dec 31 where the day is valid in every year). -/
def yearShiftD (n : ℤ) (d : PDate) : PDate :=
  ⟨((d.year : ℤ) + n).toNat, d.month, d.day⟩

/-- `YearEnd.apply`. -/
def yearEndApply (n : ℤ) (d : PDate) : PDate :=
  if d.month ≠ 12 ∨ d.day ≠ 31 then
    yearShiftD (if n ≤ 0 then n + 1 else n) ⟨d.year - 1, 12, 31⟩
  else yearShiftD n d

/-- `YearBegin.apply` (`relativedelta(years=n, day=1)` sets the day to 1). -/
def yearBeginApply (n : ℤ) (d : PDate) : PDate :=
  if d.month ≠ 1 ∨ d.day ≠ 1 then
    ⟨((d.year : ℤ) + (if n ≤ 0 then n + 1 else n)).toNat, 1, 1⟩
  else ⟨((d.year : ℤ) + n).toNat, d.month, 1⟩

/-- `Week.apply`; `dayOfWeek = none` is the unanchored weekly offset. -/
def weekApply (n : ℤ) (dow : Option ℕ) (d : PDate) : PDate :=
  match dow with
  | none =>
    if 0 ≤ n then addDays (7 * n.toNat) d else subDays (7 * n.natAbs) d
  | some w =>
    if 0 < n then
      if weekday d ≠ w then
        addDays (7 * (n - 1).toNat) (addDays (((w : ℤ) - weekday d) % 7).toNat d)
      else addDays (7 * n.toNat) d
    else
      if weekday d ≠ w then
        subDays (7 * n.natAbs) (addDays (((w : ℤ) - weekday d) % 7).toNat d)
      else subDays (7 * n.natAbs) d

/-- The calendar-rule variants used by the claims: the non-tick
`DateOffset` subclasses of `datetools.py` with their parameter sets.  The
multiplier `n` is `self.n`; `week` carries `dayOfWeek`, `bquarterEnd`
carries `startingMonth`. -/
inductive DOff where
  | bday (n : ℤ)
  | week (n : ℤ) (dayOfWeek : Option ℕ)
  | monthEnd (n : ℤ)
  | bmonthEnd (n : ℤ)
  | bquarterEnd (n : ℤ) (startingMonth : ℕ)
  | yearEnd (n : ℤ)
  | yearBegin (n : ℤ)
  deriving DecidableEq, Repr

/-- The rule's multiplier `self.n`. -/
def offN : DOff → ℤ
  | .bday n => n
  | .week n _ => n
  | .monthEnd n => n
  | .bmonthEnd n => n
  | .bquarterEnd n _ => n
  | .yearEnd n => n
  | .yearBegin n => n

/-- `self.__class__(k, **self.kwds)`: same rule kind and parameters with a
new multiplier. -/
def setN (k : ℤ) : DOff → DOff
  | .bday _ => .bday k
  | .week _ dow => .week k dow
  | .monthEnd _ => .monthEnd k
  | .bmonthEnd _ => .bmonthEnd k
  | .bquarterEnd _ sm => .bquarterEnd k sm
  | .yearEnd _ => .yearEnd k
  | .yearBegin _ => .yearBegin k

/-- `DateOffset.apply` dispatched over the rule kinds. -/
def applyD : DOff → PDate → PDate
  | .bday n, d => bdayApply n d
  | .week n dow, d => weekApply n dow d
  | .monthEnd n, d => monthEndApply n d
  | .bmonthEnd n, d => bmonthEndApply n d
  | .bquarterEnd n sm, d => bquarterEndApply n sm d
  | .yearEnd n, d => yearEndApply n d
  | .yearBegin n, d => yearBeginApply n d

/-- `onOffset`.  `BMonthEnd` inherits the generic
`someDate == ((someDate + cls()) - cls())` round-trip test, and
`BQuarterEnd.onOffset` calls `BMonthEnd().onOffset`; `Week` with no anchor
compares `weekday()` against `None`, which is always false. -/
def onOffsetD : DOff → PDate → Bool
  | .bday _, d => weekday d < 5
  | .week _ none, _ => false
  | .week _ (some w), d => weekday d == w
  | .monthEnd _, d => d.day == daysInMonth d.year d.month
  | .bmonthEnd _, d => bmonthEndApply (-1) (bmonthEndApply 1 d) == d
  | .bquarterEnd _ sm, d =>
      (bmonthEndApply (-1) (bmonthEndApply 1 d) == d) &&
        (((d.month : ℤ) - sm) % 3 == 0)
  | .yearEnd _, d => d.month == 12 && d.day == 31
  | .yearBegin _, d => d.month == 1 && d.day == 1

/-- `DateOffset.rollforward`: roll to the next on-offset date if not
already on offset (via `self.__class__(1, **self.kwds)`). -/
def rollforwardD (r : DOff) (d : PDate) : PDate :=
  if onOffsetD r d then d else applyD (setN 1 r) d

/-- Parameter validation performed by the constructors: `Week` requires
`0 <= dayOfWeek <= 6`, `BQuarterEnd` requires `1 <= startingMonth <= 3`. -/
def wfOff : DOff → Prop
  | .week _ (some w) => w ≤ 6
  | .bquarterEnd _ sm => 1 ≤ sm ∧ sm ≤ 3
  | _ => True

/-- Last business day of the month with linear index `t`. -/
def lastBDayOfIdx (t : ℕ) : PDate := lastBDayDate (t / 12) (t % 12 + 1)

theorem monthIdx_lastBDayOfIdx (t : ℕ) : monthIdx (lastBDayOfIdx t) = t := by
  unfold monthIdx lastBDayOfIdx lastBDayDate
  dsimp only
  omega

theorem weekendAdj_monthEndOfIdx (t : ℕ) :
    weekendAdj (monthEndOfIdx t) = lastBDayOfIdx t := by
  unfold monthEndOfIdx lastBDayOfIdx
  exact weekendAdj_monthEnd (t / 12) (t % 12 + 1) (by omega) (by omega)

theorem monthShiftLast_nat (d : PDate) (k : ℕ) :
    monthShiftLast (k : ℤ) d = monthEndOfIdx (monthIdx d + k) := by
  unfold monthShiftLast
  have : ((monthIdx d : ℤ) + k).toNat = monthIdx d + k := by omega
  rw [this]

theorem monthShiftLast_negOne (d : PDate) :
    monthShiftLast (-1) d = monthEndOfIdx (monthIdx d - 1) := by
  unfold monthShiftLast
  have : ((monthIdx d : ℤ) + (-1)).toNat = monthIdx d - 1 := by omega
  rw [this]

/-- `BMonthEnd(1)` sends any date to the last business day of its month,
or of the next month if the day is already at or past `lastBDay`. -/
theorem bmonthEndApply_one (d : PDate) :
    bmonthEndApply 1 d =
      if lastBDay d.year d.month ≤ d.day then lastBDayOfIdx (monthIdx d + 1)
      else lastBDayOfIdx (monthIdx d) := by
  unfold bmonthEndApply
  dsimp only
  by_cases hc : lastBDay d.year d.month ≤ d.day
  · rw [if_neg (fun hq => hq.2 hc),
      if_neg (fun hq => absurd hq.1 (by norm_num) : ¬ ((1 : ℤ) ≤ 0 ∧ _)),
      if_pos hc,
      show (1 : ℤ) = ((1 : ℕ) : ℤ) from rfl, monthShiftLast_nat,
      weekendAdj_monthEndOfIdx]
  · rw [if_pos ⟨by norm_num, hc⟩, if_neg hc,
      show ((1 : ℤ) - 1) = ((0 : ℕ) : ℤ) by norm_num, monthShiftLast_nat,
      weekendAdj_monthEndOfIdx, Nat.add_zero]

/-- `BMonthEnd(-1)` maps the last business day of month `t` to the last
business day of month `t - 1`. -/
theorem bmonthEndApply_negOne_last (t : ℕ) :
    bmonthEndApply (-1) (lastBDayOfIdx t) = lastBDayOfIdx (t - 1) := by
  unfold bmonthEndApply
  dsimp only
  have hd : (lastBDayOfIdx t).day
      = lastBDay (lastBDayOfIdx t).year (lastBDayOfIdx t).month := rfl
  rw [if_neg (fun hq => absurd hq.1 (by norm_num) : ¬ ((0 : ℤ) < -1 ∧ _)),
    if_neg (fun hq => absurd hq.2 (by rw [hd]; omega) :
      ¬ ((-1 : ℤ) ≤ 0 ∧ lastBDay (lastBDayOfIdx t).year (lastBDayOfIdx t).month
          < (lastBDayOfIdx t).day)),
    monthShiftLast_negOne, monthIdx_lastBDayOfIdx, weekendAdj_monthEndOfIdx]

theorem lastBDayOfIdx_monthIdx (d : PDate) (hm1 : 1 ≤ d.month) (hm2 : d.month ≤ 12) :
    lastBDayOfIdx (monthIdx d) = lastBDayDate d.year d.month := by
  unfold lastBDayOfIdx monthIdx lastBDayDate
  have h1 : (12 * d.year + (d.month - 1)) / 12 = d.year := by omega
  have h2 : (12 * d.year + (d.month - 1)) % 12 + 1 = d.month := by omega
  rw [h1, h2]

/-- The inherited generic `onOffset` round-trip of `BMonthEnd` holds
exactly on last business days of months. -/
theorem bmonthEnd_roundtrip_iff (d : PDate) (hm1 : 1 ≤ d.month) (hm2 : d.month ≤ 12) :
    bmonthEndApply (-1) (bmonthEndApply 1 d) = d ↔
      d.day = lastBDay d.year d.month := by
  rw [bmonthEndApply_one]
  by_cases hc : lastBDay d.year d.month ≤ d.day
  · rw [if_pos hc, bmonthEndApply_negOne_last]
    simp only [Nat.add_sub_cancel]
    rw [lastBDayOfIdx_monthIdx d hm1 hm2]
    constructor
    · intro he
      have : (lastBDayDate d.year d.month).day = d.day := by rw [he]
      unfold lastBDayDate at this
      dsimp only at this
      omega
    · intro he
      exact (PDate.eq_mk d d.year d.month (lastBDay d.year d.month) rfl rfl he).symm
  · rw [if_neg hc, bmonthEndApply_negOne_last]
    constructor
    · intro he
      exfalso
      have hidx := monthIdx_lastBDayOfIdx (monthIdx d - 1)
      rw [he] at hidx
      by_cases ht : monthIdx d = 0
      · have ht0 : monthIdx d - 1 = monthIdx d := by omega
        rw [ht0, lastBDayOfIdx_monthIdx d hm1 hm2] at he
        have : (lastBDayDate d.year d.month).day = d.day := by rw [he]
        unfold lastBDayDate at this
        dsimp only at this
        omega
      · omega
    · intro he
      exact absurd (by omega : lastBDay d.year d.month ≤ d.day) hc

theorem qtrMtg_bounds (sm : ℕ) (d : PDate) :
    0 ≤ qtrMtg sm d ∧ qtrMtg sm d ≤ 2 ∧
      (qtrMtg sm d = 0 ↔ ((d.month : ℤ) - sm) % 3 = 0) := by
  unfold qtrMtg
  have hr0 : 0 ≤ ((d.month : ℤ) - sm) % 3 := Int.emod_nonneg _ (by norm_num)
  have hr3 : ((d.month : ℤ) - sm) % 3 < 3 := Int.emod_lt_of_pos _ (by norm_num)
  dsimp only
  split <;> omega

/-! ## Zero-multiplier behavior (claim C7) -/

theorem bdayApply_zero_eq_rollforward (d : PDate) (hv : PValid d) :
    bdayApply 0 d = rollforwardD (.bday 0) d := by
  unfold rollforwardD
  by_cases hw : weekday d < 5
  · rw [if_pos (by simp only [onOffsetD, decide_eq_true_eq]; exact hw)]
    exact bdayApply_zero_on d hw
  · rw [if_neg (by simp only [onOffsetD, decide_eq_true_eq]; exact hw)]
    show bdayApply 0 d = bdayApply 1 d
    rw [bdayApply_zero_off d hv (by omega), bdayApply_pos 1 (by norm_num) d hv]
    rfl

theorem monthEndApply_zero_eq_rollforward (d : PDate) (hv : PValid d) :
    monthEndApply 0 d = rollforwardD (.monthEnd 0) d := by
  obtain ⟨hy, hm1, hm2, hd1, hd2⟩ := hv
  unfold rollforwardD
  by_cases hc : d.day = daysInMonth d.year d.month
  · rw [if_pos (by simp only [onOffsetD, beq_iff_eq]; exact hc)]
    unfold monthEndApply
    rw [if_neg (not_not_intro hc),
      show (0 : ℤ) = ((0 : ℕ) : ℤ) from rfl, monthShiftLast_nat, Nat.add_zero,
      monthEndOfIdx_monthIdx d hm1 hm2]
    exact (PDate.eq_mk d _ _ _ rfl rfl hc).symm
  · rw [if_neg (by simp only [onOffsetD, beq_iff_eq]; exact hc)]
    show monthEndApply 0 d = monthEndApply 1 d
    unfold monthEndApply
    rw [if_pos hc, if_pos hc]
    norm_num

theorem yearEndApply_zero_eq_rollforward (d : PDate) (hv : PValid d) :
    yearEndApply 0 d = rollforwardD (.yearEnd 0) d := by
  unfold rollforwardD
  by_cases hc : d.month = 12 ∧ d.day = 31
  · rw [if_pos (by
      simp only [onOffsetD, Bool.and_eq_true, beq_iff_eq]
      exact hc)]
    unfold yearEndApply
    rw [if_neg (by omega)]
    unfold yearShiftD
    exact (PDate.eq_mk d _ _ _ (by omega) rfl rfl).symm
  · rw [if_neg (by
      simp only [onOffsetD, Bool.and_eq_true, beq_iff_eq]
      exact hc)]
    show yearEndApply 0 d = yearEndApply 1 d
    unfold yearEndApply
    rw [if_pos (show d.month ≠ 12 ∨ d.day ≠ 31 by omega)]
    norm_num
    rw [if_pos (show d.month ≠ 12 ∨ d.day ≠ 31 by omega)]

theorem yearBeginApply_zero_eq_rollforward (d : PDate) (hv : PValid d) :
    yearBeginApply 0 d = rollforwardD (.yearBegin 0) d := by
  unfold rollforwardD
  by_cases hc : d.month = 1 ∧ d.day = 1
  · rw [if_pos (by
      simp only [onOffsetD, Bool.and_eq_true, beq_iff_eq]
      exact hc)]
    unfold yearBeginApply
    rw [if_neg (by omega)]
    exact (PDate.eq_mk d _ _ _ (by omega) rfl hc.2).symm
  · rw [if_neg (by
      simp only [onOffsetD, Bool.and_eq_true, beq_iff_eq]
      exact hc)]
    show yearBeginApply 0 d = yearBeginApply 1 d
    unfold yearBeginApply
    rw [if_pos (show d.month ≠ 1 ∨ d.day ≠ 1 by omega)]
    norm_num
    rw [if_pos (show d.month ≠ 1 ∨ d.day ≠ 1 by omega)]

theorem weekApply_zero_eq_rollforward (w : ℕ) (d : PDate) (hv : PValid d) :
    weekApply 0 (some w) d = rollforwardD (.week 0 (some w)) d := by
  unfold rollforwardD
  by_cases hc : weekday d = w
  · rw [if_pos (by simp only [onOffsetD, beq_iff_eq]; exact hc)]
    unfold weekApply
    dsimp only
    rw [if_neg (by norm_num : ¬ (0 : ℤ) < 0), if_neg (not_not_intro hc)]
    rfl
  · rw [if_neg (by simp only [onOffsetD, beq_iff_eq]; exact hc)]
    show weekApply 0 (some w) d = weekApply 1 (some w) d
    unfold weekApply
    dsimp only
    rw [if_neg (by norm_num : ¬ (0 : ℤ) < 0), if_pos (by norm_num : (0 : ℤ) < 1),
      if_pos hc, if_pos hc]
    rfl

theorem bmonthEndApply_zero_eq_rollforward (d : PDate) (hv : PValid d) :
    bmonthEndApply 0 d = rollforwardD (.bmonthEnd 0) d := by
  obtain ⟨hy, hm1, hm2, hd1, hd2⟩ := hv
  have hiff := bmonthEnd_roundtrip_iff d hm1 hm2
  unfold rollforwardD
  by_cases hc : d.day = lastBDay d.year d.month
  · rw [if_pos (by simp only [onOffsetD, beq_iff_eq]; exact hiff.mpr hc)]
    unfold bmonthEndApply
    dsimp only
    rw [if_neg (show ¬ ((0 : ℤ) < 0 ∧ ¬ lastBDay d.year d.month ≤ d.day) from
          fun hq => absurd hq.1 (by norm_num)),
      if_neg (show ¬ ((0 : ℤ) ≤ 0 ∧ lastBDay d.year d.month < d.day) from
          fun hq => absurd hq.2 (by omega)),
      show (0 : ℤ) = ((0 : ℕ) : ℤ) from rfl, monthShiftLast_nat, Nat.add_zero,
      weekendAdj_monthEndOfIdx, lastBDayOfIdx_monthIdx d hm1 hm2]
    exact (PDate.eq_mk d _ _ _ rfl rfl hc).symm
  · rw [if_neg (by
      simp only [onOffsetD, beq_iff_eq]
      exact fun hq => hc (hiff.mp hq))]
    show bmonthEndApply 0 d = bmonthEndApply 1 d
    unfold bmonthEndApply
    dsimp only
    by_cases hL : lastBDay d.year d.month ≤ d.day
    · rw [if_neg (show ¬ ((0 : ℤ) < 0 ∧ ¬ lastBDay d.year d.month ≤ d.day) from
            fun hq => absurd hq.1 (by norm_num)),
        if_pos (show (0 : ℤ) ≤ 0 ∧ lastBDay d.year d.month < d.day from
            ⟨le_refl _, by omega⟩),
        if_neg (show ¬ ((0 : ℤ) < 1 ∧ ¬ lastBDay d.year d.month ≤ d.day) from
            fun hq => hq.2 hL),
        if_neg (show ¬ ((1 : ℤ) ≤ 0 ∧ lastBDay d.year d.month < d.day) from
            fun hq => absurd hq.1 (by norm_num))]
      norm_num
    · rw [if_neg (show ¬ ((0 : ℤ) < 0 ∧ ¬ lastBDay d.year d.month ≤ d.day) from
            fun hq => absurd hq.1 (by norm_num)),
        if_neg (show ¬ ((0 : ℤ) ≤ 0 ∧ lastBDay d.year d.month < d.day) from
            fun hq => absurd hq.2 (by omega)),
        if_pos (show (0 : ℤ) < 1 ∧ ¬ lastBDay d.year d.month ≤ d.day from
            ⟨by norm_num, hL⟩)]
      norm_num

theorem bquarterEndApply_zero_eq_rollforward (sm : ℕ) (d : PDate) (hv : PValid d) :
    bquarterEndApply 0 sm d = rollforwardD (.bquarterEnd 0 sm) d := by
  obtain ⟨hy, hm1, hm2, hd1, hd2⟩ := hv
  have hiff := bmonthEnd_roundtrip_iff d hm1 hm2
  have hq := qtrMtg_bounds sm d
  unfold rollforwardD
  by_cases hon : d.day = lastBDay d.year d.month ∧ qtrMtg sm d = 0
  · rw [if_pos (by
      simp only [onOffsetD, Bool.and_eq_true, beq_iff_eq]
      exact ⟨hiff.mpr hon.1, hq.2.2.mp hon.2⟩)]
    unfold bquarterEndApply
    dsimp only
    rw [if_neg (show ¬ ((0 : ℤ) < 0 ∧
          ¬ (lastBDay d.year d.month ≤ d.day ∧ qtrMtg sm d = 0)) from
          fun hc => absurd hc.1 (by norm_num)),
      if_neg (show ¬ ((0 : ℤ) ≤ 0 ∧ lastBDay d.year d.month < d.day ∧
          qtrMtg sm d = 0) from fun hc => absurd hc.2.1 (by omega)),
      hon.2, show ((0 : ℤ) + 3 * 0) = ((0 : ℕ) : ℤ) by norm_num,
      monthShiftLast_nat, Nat.add_zero, weekendAdj_monthEndOfIdx,
      lastBDayOfIdx_monthIdx d hm1 hm2]
    exact (PDate.eq_mk d _ _ _ rfl rfl hon.1).symm
  · rw [if_neg (by
      simp only [onOffsetD, Bool.and_eq_true, beq_iff_eq]
      exact fun hc => hon ⟨hiff.mp hc.1, hq.2.2.mpr hc.2⟩)]
    show bquarterEndApply 0 sm d = bquarterEndApply 1 sm d
    unfold bquarterEndApply
    dsimp only
    by_cases hLm : lastBDay d.year d.month ≤ d.day ∧ qtrMtg sm d = 0
    · have hne : d.day ≠ lastBDay d.year d.month := fun he => hon ⟨he, hLm.2⟩
      rw [if_neg (show ¬ ((0 : ℤ) < 0 ∧
            ¬ (lastBDay d.year d.month ≤ d.day ∧ qtrMtg sm d = 0)) from
            fun hc => absurd hc.1 (by norm_num)),
        if_pos (show (0 : ℤ) ≤ 0 ∧ lastBDay d.year d.month < d.day ∧
            qtrMtg sm d = 0 from ⟨le_refl _, by omega, hLm.2⟩),
        if_neg (show ¬ ((0 : ℤ) < 1 ∧
            ¬ (lastBDay d.year d.month ≤ d.day ∧ qtrMtg sm d = 0)) from
            fun hc => hc.2 hLm),
        if_neg (show ¬ ((1 : ℤ) ≤ 0 ∧ lastBDay d.year d.month < d.day ∧
            qtrMtg sm d = 0) from fun hc => absurd hc.1 (by norm_num))]
      norm_num
    · rw [if_neg (show ¬ ((0 : ℤ) < 0 ∧
            ¬ (lastBDay d.year d.month ≤ d.day ∧ qtrMtg sm d = 0)) from
            fun hc => absurd hc.1 (by norm_num)),
        if_neg (show ¬ ((0 : ℤ) ≤ 0 ∧ lastBDay d.year d.month < d.day ∧
            qtrMtg sm d = 0) from fun hc => hLm ⟨by omega, hc.2.2⟩),
        if_pos (show (0 : ℤ) < 1 ∧
            ¬ (lastBDay d.year d.month ≤ d.day ∧ qtrMtg sm d = 0) from
            ⟨by norm_num, hLm⟩)]
      norm_num

/-- The rule kinds that carry a genuine on-offset membership test: every
kind except the unanchored `Week` (whose `weekday() == None` test is
constantly false). -/
def hasOnOffsetTest : DOff → Prop
  | .week _ none => False
  | _ => True

/-- C7.  For every calendar rule kind with an on-offset membership test
(business day, month end, business month end, quarter end, year end,
year begin, anchored week) and every date `d`, applying the rule with
multiplier `n = 0` returns `d` unchanged when `d` is on-offset and
otherwise rolls `d` forward to the next on-offset date: `apply` with
`n = 0` coincides with `rollforward`. -/
theorem claim_C7_zero_is_rollforward (r : DOff) (d : PDate)
    (hk : hasOnOffsetTest r) (hn : offN r = 0) (hv : PValid d) :
    applyD r d = rollforwardD r d ∧ (onOffsetD r d = true → applyD r d = d) := by
  have main : applyD r d = rollforwardD r d := by
    rcases r with n | ⟨n, dow⟩ | n | n | ⟨n, sm⟩ | n | n
    · have h0 : n = 0 := hn
      subst h0
      exact bdayApply_zero_eq_rollforward d hv
    · rcases dow with _ | w
      · exact absurd hk (by simp [hasOnOffsetTest])
      · have h0 : n = 0 := hn
        subst h0
        exact weekApply_zero_eq_rollforward w d hv
    · have h0 : n = 0 := hn
      subst h0
      exact monthEndApply_zero_eq_rollforward d hv
    · have h0 : n = 0 := hn
      subst h0
      exact bmonthEndApply_zero_eq_rollforward d hv
    · have h0 : n = 0 := hn
      subst h0
      exact bquarterEndApply_zero_eq_rollforward sm d hv
    · have h0 : n = 0 := hn
      subst h0
      exact yearEndApply_zero_eq_rollforward d hv
    · have h0 : n = 0 := hn
      subst h0
      exact yearBeginApply_zero_eq_rollforward d hv
  refine ⟨main, fun hon => ?_⟩
  rw [main]
  unfold rollforwardD
  rw [if_pos hon]

/-- Witness for C7 at the month-end rule with `n = 0` on 2024-01-15: the
zero-multiplier application equals `rollforward` (both give 2024-01-31),
and on the on-offset date 2024-01-31 it is the identity. -/
theorem claim_C7_zero_is_rollforward_witness :
    offN (.monthEnd 0) = 0 ∧ PValid ⟨2024, 1, 15⟩ ∧
      (applyD (.monthEnd 0) ⟨2024, 1, 15⟩ = rollforwardD (.monthEnd 0) ⟨2024, 1, 15⟩ ∧
        (onOffsetD (.monthEnd 0) ⟨2024, 1, 15⟩ = true →
          applyD (.monthEnd 0) ⟨2024, 1, 15⟩ = ⟨2024, 1, 15⟩)) :=
  ⟨rfl, by decide,
    claim_C7_zero_is_rollforward (.monthEnd 0) ⟨2024, 1, 15⟩ trivial rfl (by decide)⟩

/-! ## Positive multipliers: validity, strict increase, landing on offset -/

theorem valid_monthEndOfIdx12 (t : ℕ) (h : 12 ≤ t) : PValid (monthEndOfIdx t) :=
  valid_monthEndOfIdx t h

theorem valid_lastBDayOfIdx (t : ℕ) (h : 12 ≤ t) : PValid (lastBDayOfIdx t) := by
  unfold lastBDayOfIdx lastBDayDate PValid
  dsimp only
  have hb := lastBDay_bounds (t / 12) (t % 12 + 1) (by omega) (by omega)
  refine ⟨by omega, by omega, by omega, by omega, by omega⟩

theorem lexLt_of_monthIdx_lt_lastB (d : PDate) (t : ℕ) (hm1 : 1 ≤ d.month)
    (hm2 : d.month ≤ 12) (h : monthIdx d < t) : lexLt d (lastBDayOfIdx t) := by
  unfold lexLt lastBDayOfIdx lastBDayDate monthIdx at *
  dsimp only
  omega

theorem lexLt_lastBDayOfIdx_self (d : PDate) (hm1 : 1 ≤ d.month)
    (hm2 : d.month ≤ 12) (hd : d.day < lastBDay d.year d.month) :
    lexLt d (lastBDayOfIdx (monthIdx d)) := by
  rw [lastBDayOfIdx_monthIdx d hm1 hm2]
  unfold lexLt lastBDayDate
  dsimp only
  omega

theorem lexLt_monthEndOfIdx_self (d : PDate) (hm1 : 1 ≤ d.month)
    (hm2 : d.month ≤ 12) (hd : d.day < daysInMonth d.year d.month) :
    lexLt d (monthEndOfIdx (monthIdx d)) := by
  rw [monthEndOfIdx_monthIdx d hm1 hm2]
  unfold lexLt
  dsimp only
  omega

theorem onOffset_monthEnd_monthEndOfIdx (k : ℤ) (t : ℕ) :
    onOffsetD (.monthEnd k) (monthEndOfIdx t) = true := by
  simp only [onOffsetD, monthEndOfIdx, beq_iff_eq]

theorem day_lastBDayOfIdx (t : ℕ) :
    (lastBDayOfIdx t).day
      = lastBDay (lastBDayOfIdx t).year (lastBDayOfIdx t).month := rfl

theorem onOffset_bmonthEnd_lastBDayOfIdx (k : ℤ) (t : ℕ) :
    onOffsetD (.bmonthEnd k) (lastBDayOfIdx t) = true := by
  simp only [onOffsetD, beq_iff_eq]
  exact (bmonthEnd_roundtrip_iff (lastBDayOfIdx t) (by unfold lastBDayOfIdx lastBDayDate; dsimp only; omega)
    (by unfold lastBDayOfIdx lastBDayDate; dsimp only; omega)).mpr (day_lastBDayOfIdx t)

/-- `monthShiftLast` with a nonnegative integer shift, stated through
`Int.toNat`. -/
theorem monthShiftLast_nonneg (d : PDate) (k : ℤ) (hk : 0 ≤ k) :
    monthShiftLast k d = monthEndOfIdx (monthIdx d + k.toNat) := by
  unfold monthShiftLast
  have : ((monthIdx d : ℤ) + k).toNat = monthIdx d + k.toNat := by omega
  rw [this]

theorem monthEndApply_pos_props (n : ℤ) (hn : 1 ≤ n) (d : PDate) (hv : PValid d) :
    PValid (monthEndApply n d) ∧ dlt d (monthEndApply n d) ∧
      onOffsetD (.monthEnd n) (monthEndApply n d) = true := by
  obtain ⟨hy, hm1, hm2, hd1, hd2⟩ := hv
  have ht : 12 ≤ monthIdx d := by unfold monthIdx; omega
  unfold monthEndApply
  by_cases hc : d.day = daysInMonth d.year d.month
  · rw [if_neg (not_not_intro hc), monthShiftLast_nonneg d n (by omega)]
    refine ⟨valid_monthEndOfIdx _ (by omega), ?_, onOffset_monthEnd_monthEndOfIdx _ _⟩
    exact toRata_lt_of_lexLt ⟨hy, hm1, hm2, hd1, hd2⟩ (valid_monthEndOfIdx _ (by omega))
      (lexLt_of_monthIdx_lt d _ hm1 hm2 (by omega))
  · rw [if_pos hc, if_neg (by omega : ¬ n ≤ 0), monthShiftLast_negOne,
      monthShiftLast_nonneg _ n (by omega), monthIdx_monthEndOfIdx]
    have hs : 12 ≤ monthIdx d - 1 + n.toNat := by omega
    refine ⟨valid_monthEndOfIdx _ hs, ?_, onOffset_monthEnd_monthEndOfIdx _ _⟩
    apply toRata_lt_of_lexLt ⟨hy, hm1, hm2, hd1, hd2⟩ (valid_monthEndOfIdx _ hs)
    rcases Nat.lt_or_ge (monthIdx d) (monthIdx d - 1 + n.toNat) with h | h
    · exact lexLt_of_monthIdx_lt d _ hm1 hm2 h
    · have he : monthIdx d - 1 + n.toNat = monthIdx d := by omega
      rw [he]
      exact lexLt_monthEndOfIdx_self d hm1 hm2 (by omega)

theorem bmonthEndApply_pos_props (n : ℤ) (hn : 1 ≤ n) (d : PDate) (hv : PValid d) :
    PValid (bmonthEndApply n d) ∧ dlt d (bmonthEndApply n d) ∧
      onOffsetD (.bmonthEnd n) (bmonthEndApply n d) = true := by
  obtain ⟨hy, hm1, hm2, hd1, hd2⟩ := hv
  have ht : 12 ≤ monthIdx d := by unfold monthIdx; omega
  unfold bmonthEndApply
  dsimp only
  by_cases hL : lastBDay d.year d.month ≤ d.day
  · rw [if_neg (show ¬ (0 < n ∧ ¬ lastBDay d.year d.month ≤ d.day) from
        fun hq => hq.2 hL),
      if_neg (show ¬ (n ≤ 0 ∧ lastBDay d.year d.month < d.day) from
        fun hq => absurd hq.1 (by omega)),
      monthShiftLast_nonneg d n (by omega), weekendAdj_monthEndOfIdx]
    refine ⟨valid_lastBDayOfIdx _ (by omega), ?_, onOffset_bmonthEnd_lastBDayOfIdx _ _⟩
    exact toRata_lt_of_lexLt ⟨hy, hm1, hm2, hd1, hd2⟩ (valid_lastBDayOfIdx _ (by omega))
      (lexLt_of_monthIdx_lt_lastB d _ hm1 hm2 (by omega))
  · rw [if_pos (show 0 < n ∧ ¬ lastBDay d.year d.month ≤ d.day from ⟨by omega, hL⟩),
      monthShiftLast_nonneg d (n - 1) (by omega), weekendAdj_monthEndOfIdx]
    have hs : 12 ≤ monthIdx d + (n - 1).toNat := by omega
    refine ⟨valid_lastBDayOfIdx _ hs, ?_, onOffset_bmonthEnd_lastBDayOfIdx _ _⟩
    apply toRata_lt_of_lexLt ⟨hy, hm1, hm2, hd1, hd2⟩ (valid_lastBDayOfIdx _ hs)
    rcases Nat.lt_or_ge (monthIdx d) (monthIdx d + (n - 1).toNat) with h | h
    · exact lexLt_of_monthIdx_lt_lastB d _ hm1 hm2 h
    · have he : monthIdx d + (n - 1).toNat = monthIdx d := by omega
      rw [he]
      exact lexLt_lastBDayOfIdx_self d hm1 hm2 (by omega)

theorem qtrMtg_congr (sm : ℕ) (d : PDate) :
    (qtrMtg sm d + ((d.month : ℤ) - sm)) % 3 = 0 := by
  unfold qtrMtg
  have hr0 : 0 ≤ ((d.month : ℤ) - sm) % 3 := Int.emod_nonneg _ (by norm_num)
  have hr3 : ((d.month : ℤ) - sm) % 3 < 3 := Int.emod_lt_of_pos _ (by norm_num)
  dsimp only
  split <;> omega

theorem onOffset_bquarterEnd_lastBDayOfIdx (k : ℤ) (sm : ℕ) (d : PDate)
    (hm1 : 1 ≤ d.month) (hm2 : d.month ≤ 12) (q : ℕ)
    (hq : ((monthIdx d + q : ℤ) - ((d.month : ℤ) - 1) - qtrMtg sm d) % 3 = 0) :
    onOffsetD (.bquarterEnd k sm) (lastBDayOfIdx (monthIdx d + q)) = true := by
  simp only [onOffsetD, Bool.and_eq_true, beq_iff_eq]
  constructor
  · exact (bmonthEnd_roundtrip_iff (lastBDayOfIdx (monthIdx d + q))
      (by unfold lastBDayOfIdx lastBDayDate; dsimp only; omega)
      (by unfold lastBDayOfIdx lastBDayDate; dsimp only; omega)).mpr
      (day_lastBDayOfIdx _)
  · have hcong := qtrMtg_congr sm d
    have hmi : monthIdx d = 12 * d.year + (d.month - 1) := rfl
    unfold lastBDayOfIdx lastBDayDate
    dsimp only
    omega

theorem bquarterEndApply_pos_props (n : ℤ) (hn : 1 ≤ n) (sm : ℕ) (d : PDate)
    (hv : PValid d) :
    PValid (bquarterEndApply n sm d) ∧ dlt d (bquarterEndApply n sm d) ∧
      onOffsetD (.bquarterEnd n sm) (bquarterEndApply n sm d) = true := by
  obtain ⟨hy, hm1, hm2, hd1, hd2⟩ := hv
  have ht : 12 ≤ monthIdx d := by unfold monthIdx; omega
  have hmi : monthIdx d = 12 * d.year + (d.month - 1) := rfl
  have hqb := qtrMtg_bounds sm d
  unfold bquarterEndApply
  dsimp only
  by_cases hc : lastBDay d.year d.month ≤ d.day ∧ qtrMtg sm d = 0
  · rw [if_neg (show ¬ (0 < n ∧
          ¬ (lastBDay d.year d.month ≤ d.day ∧ qtrMtg sm d = 0)) from
          fun hq => hq.2 hc),
      if_neg (show ¬ (n ≤ 0 ∧ lastBDay d.year d.month < d.day ∧
          qtrMtg sm d = 0) from fun hq => absurd hq.1 (by omega)),
      monthShiftLast_nonneg d _ (by omega : (0 : ℤ) ≤ qtrMtg sm d + 3 * n),
      weekendAdj_monthEndOfIdx]
    refine ⟨valid_lastBDayOfIdx _ (by omega), ?_, ?_⟩
    · exact toRata_lt_of_lexLt ⟨hy, hm1, hm2, hd1, hd2⟩
        (valid_lastBDayOfIdx _ (by omega))
        (lexLt_of_monthIdx_lt_lastB d _ hm1 hm2 (by omega))
    · exact onOffset_bquarterEnd_lastBDayOfIdx n sm d hm1 hm2 _ (by omega)
  · rw [if_pos (show 0 < n ∧
          ¬ (lastBDay d.year d.month ≤ d.day ∧ qtrMtg sm d = 0) from
          ⟨by omega, hc⟩),
      monthShiftLast_nonneg d _ (by omega : (0 : ℤ) ≤ qtrMtg sm d + 3 * (n - 1)),
      weekendAdj_monthEndOfIdx]
    refine ⟨valid_lastBDayOfIdx _ (by omega), ?_, ?_⟩
    · apply toRata_lt_of_lexLt ⟨hy, hm1, hm2, hd1, hd2⟩
        (valid_lastBDayOfIdx _ (by omega))
      rcases Nat.eq_zero_or_pos ((qtrMtg sm d + 3 * (n - 1)).toNat) with h0 | h0
      · have hq0 : qtrMtg sm d = 0 := by omega
        have hdayL : d.day < lastBDay d.year d.month := by
          have := fun h => hc ⟨h, hq0⟩
          omega
        have he : monthIdx d + (qtrMtg sm d + 3 * (n - 1)).toNat = monthIdx d := by
          omega
        rw [he]
        exact lexLt_lastBDayOfIdx_self d hm1 hm2 hdayL
      · exact lexLt_of_monthIdx_lt_lastB d _ hm1 hm2 (by omega)
    · exact onOffset_bquarterEnd_lastBDayOfIdx n sm d hm1 hm2 _ (by omega)

theorem valid_dec31 (y : ℕ) (h : 1 ≤ y) : PValid ⟨y, 12, 31⟩ := by
  unfold PValid
  dsimp only
  have := daysInMonth_twelve y
  omega

theorem valid_jan1 (y : ℕ) (h : 1 ≤ y) : PValid ⟨y, 1, 1⟩ := by
  unfold PValid
  dsimp only
  have := daysInMonth_one y
  omega

theorem yearEndApply_pos_props (n : ℤ) (hn : 1 ≤ n) (d : PDate) (hv : PValid d) :
    PValid (yearEndApply n d) ∧ dlt d (yearEndApply n d) ∧
      onOffsetD (.yearEnd n) (yearEndApply n d) = true := by
  obtain ⟨hy, hm1, hm2, hd1, hd2⟩ := hv
  have h31 := daysInMonth_le d.year d.month
  unfold yearEndApply
  by_cases hc : d.month ≠ 12 ∨ d.day ≠ 31
  · rw [if_pos hc, if_neg (by omega : ¬ n ≤ 0)]
    unfold yearShiftD
    dsimp only
    refine ⟨valid_dec31 _ (by omega), ?_, ?_⟩
    · apply toRata_lt_of_lexLt ⟨hy, hm1, hm2, hd1, hd2⟩ (valid_dec31 _ (by omega))
      unfold lexLt
      dsimp only
      omega
    · simp only [onOffsetD, Bool.and_eq_true, beq_iff_eq]
      exact ⟨trivial, trivial⟩
  · rw [if_neg hc]
    push_neg at hc
    unfold yearShiftD
    have hvr : PValid ⟨((d.year : ℤ) + n).toNat, d.month, d.day⟩ := by
      unfold PValid
      dsimp only
      have hdim : daysInMonth ((d.year : ℤ) + n).toNat d.month = 31 := by
        rw [hc.1]
        exact daysInMonth_twelve _
      omega
    refine ⟨hvr, ?_, ?_⟩
    · apply toRata_lt_of_lexLt ⟨hy, hm1, hm2, hd1, hd2⟩ hvr
      unfold lexLt
      dsimp only
      omega
    · simp only [onOffsetD, Bool.and_eq_true, beq_iff_eq]
      exact ⟨hc.1, hc.2⟩

theorem yearBeginApply_pos_props (n : ℤ) (hn : 1 ≤ n) (d : PDate) (hv : PValid d) :
    PValid (yearBeginApply n d) ∧ dlt d (yearBeginApply n d) ∧
      onOffsetD (.yearBegin n) (yearBeginApply n d) = true := by
  obtain ⟨hy, hm1, hm2, hd1, hd2⟩ := hv
  unfold yearBeginApply
  by_cases hc : d.month ≠ 1 ∨ d.day ≠ 1
  · rw [if_pos hc, if_neg (by omega : ¬ n ≤ 0)]
    refine ⟨valid_jan1 _ (by omega), ?_, ?_⟩
    · apply toRata_lt_of_lexLt ⟨hy, hm1, hm2, hd1, hd2⟩ (valid_jan1 _ (by omega))
      unfold lexLt
      dsimp only
      omega
    · simp only [onOffsetD, Bool.and_eq_true, beq_iff_eq]
      exact ⟨trivial, trivial⟩
  · rw [if_neg hc]
    push_neg at hc
    have hvr : PValid ⟨((d.year : ℤ) + n).toNat, d.month, 1⟩ := by
      unfold PValid
      dsimp only
      have := daysInMonth_pos ((d.year : ℤ) + n).toNat d.month
      omega
    refine ⟨hvr, ?_, ?_⟩
    · apply toRata_lt_of_lexLt ⟨hy, hm1, hm2, hd1, hd2⟩ hvr
      unfold lexLt
      dsimp only
      omega
    · simp only [onOffsetD, Bool.and_eq_true, beq_iff_eq]
      exact ⟨hc.1, trivial⟩

theorem weekApply_pos_props (n : ℤ) (hn : 1 ≤ n) (w : ℕ) (hw : w ≤ 6)
    (d : PDate) (hv : PValid d) :
    PValid (weekApply n (some w) d) ∧ dlt d (weekApply n (some w) d) ∧
      onOffsetD (.week n (some w)) (weekApply n (some w) d) = true := by
  have hwd := weekday_lt d
  unfold weekApply
  dsimp only
  rw [if_pos (by omega : (0 : ℤ) < n)]
  by_cases hc : weekday d ≠ w
  · rw [if_pos hc]
    have hr0 : 0 ≤ ((w : ℤ) - weekday d) % 7 := Int.emod_nonneg _ (by norm_num)
    have hr7 : ((w : ℤ) - weekday d) % 7 < 7 := Int.emod_lt_of_pos _ (by norm_num)
    have hj1 : 1 ≤ (((w : ℤ) - weekday d) % 7).toNat := by omega
    have hv1 := valid_addDays ((((w : ℤ) - weekday d) % 7).toNat) d hv
    have hv2 := valid_addDays (7 * (n - 1).toNat) _ hv1
    have hrata1 := rata_addDays ((((w : ℤ) - weekday d) % 7).toNat) d hv
    have hrata2 := rata_addDays (7 * (n - 1).toNat) _ hv1
    have hwd1 := weekday_addDays ((((w : ℤ) - weekday d) % 7).toNat) d hv
    have hwd2 := weekday_addDays (7 * (n - 1).toNat) _ hv1
    refine ⟨hv2, ?_, ?_⟩
    · unfold dlt
      omega
    · simp only [onOffsetD, beq_iff_eq]
      unfold weekday at *
      omega
  · rw [if_neg hc]
    simp only [not_not] at hc
    have hv2 := valid_addDays (7 * n.toNat) d hv
    have hrata2 := rata_addDays (7 * n.toNat) d hv
    have hwd2 := weekday_addDays (7 * n.toNat) d hv
    refine ⟨hv2, ?_, ?_⟩
    · unfold dlt
      omega
    · simp only [onOffsetD, beq_iff_eq]
      omega

theorem bdayApply_pos_props (n : ℤ) (hn : 1 ≤ n) (d : PDate) (hv : PValid d) :
    PValid (bdayApply n d) ∧ dlt d (bdayApply n d) ∧
      onOffsetD (.bday n) (bdayApply n d) = true := by
  rw [bdayApply_pos n (by omega) d hv]
  have hk : 1 ≤ n.toNat := by omega
  have hr := rata_nwd_iter n.toNat d hv
  refine ⟨valid_nwd_iter _ _ hv, ?_, ?_⟩
  · unfold dlt
    omega
  · simp only [onOffsetD, decide_eq_true_eq]
    exact weekday_nwd_iter _ _ hv hk

/-- Any rule with positive multiplier maps a valid date to a strictly
later valid date, and (for kinds with a membership test) lands on offset. -/
theorem applyD_pos_props (r : DOff) (d : PDate) (hn : 1 ≤ offN r)
    (hw : wfOff r) (hv : PValid d) :
    PValid (applyD r d) ∧ dlt d (applyD r d) ∧
      (hasOnOffsetTest r → onOffsetD r (applyD r d) = true) := by
  rcases r with n | ⟨n, dow⟩ | n | n | ⟨n, sm⟩ | n | n
  · have h := bdayApply_pos_props n hn d hv
    exact ⟨h.1, h.2.1, fun _ => h.2.2⟩
  · rcases dow with _ | w
    · have hnz : (1 : ℤ) ≤ n := hn
      have hres : weekApply n none d = addDays (7 * n.toNat) d := by
        unfold weekApply
        dsimp only
        rw [if_pos (by omega : (0 : ℤ) ≤ n)]
      show PValid (weekApply n none d) ∧ dlt d (weekApply n none d) ∧ _
      rw [hres]
      refine ⟨valid_addDays _ d hv, ?_, fun hk => absurd hk (by simp [hasOnOffsetTest])⟩
      have := rata_addDays (7 * n.toNat) d hv
      have hn1 : 1 ≤ n.toNat := by omega
      unfold dlt
      omega
    · have hw6 : w ≤ 6 := hw
      have h := weekApply_pos_props n hn w hw6 d hv
      exact ⟨h.1, h.2.1, fun _ => h.2.2⟩
  · have h := monthEndApply_pos_props n hn d hv
    exact ⟨h.1, h.2.1, fun _ => h.2.2⟩
  · have h := bmonthEndApply_pos_props n hn d hv
    exact ⟨h.1, h.2.1, fun _ => h.2.2⟩
  · have h := bquarterEndApply_pos_props n hn sm d hv
    exact ⟨h.1, h.2.1, fun _ => h.2.2⟩
  · have h := yearEndApply_pos_props n hn d hv
    exact ⟨h.1, h.2.1, fun _ => h.2.2⟩
  · have h := yearBeginApply_pos_props n hn d hv
    exact ⟨h.1, h.2.1, fun _ => h.2.2⟩

/-! ## `XDateRange` and the `DateRange` cache (`pandas/core/daterange.py`) -/

/-- Errors of the range layer.  `typeErr` is Python's `TypeError` from
arithmetic on `None` (a missing operand); the other three are the
`Exception`s raised by `DateRange.getCachedRange`. -/
inductive RErr where
  | typeErr
  | noOffset
  | needStartOrEnd
  | needPeriods
  | keyError
  deriving DecidableEq, Repr

/-- The state of an `XDateRange` after `__init__`. -/
structure XDRConfig where
  fromDate : PDate
  toDate : PDate
  nPeriods : Option ℤ
  deriving DecidableEq, Repr

/-- `XDateRange.__init__`: adjust a supplied `fromDate` forward and an
off-offset `toDate` backward, and — only in that off-offset branch —
reset to an empty range when the retreated `toDate` falls before the
(already adjusted) `fromDate` with no explicit period count; a missing
endpoint is computed as `anchor ± (nPeriods - 1) * offset`.  Arithmetic
on a missing operand is Python's `TypeError`. -/
def xdrInit (f t : Option PDate) (p : Option ℤ) (r : DOff) :
    Except RErr XDRConfig :=
  let f2 : Option PDate :=
    match f with
    | none => none
    | some d => some (if onOffsetD r d then d else applyD (setN 1 r) d)
  let tp : Option PDate × Option ℤ :=
    match t with
    | none => (none, p)
    | some d =>
      if onOffsetD r d then (some d, p)
      else
        let d2 := applyD (setN (-1) r) d
        if p = none ∧ (match f2 with
            | some fd => decide (dlt d2 fd)
            | none => false) = true then
          (none, some 0)
        else (some d2, p)
  do
    let td ← (match tp.1 with
      | some d => Except.ok d
      | none =>
        match f2, tp.2 with
        | some fd, some pp => Except.ok (applyD (setN ((pp - 1) * offN r) r) fd)
        | _, _ => Except.error RErr.typeErr)
    let fd ← (match f2 with
      | some d => Except.ok d
      | none =>
        match tp.2 with
        | some pp => Except.ok (applyD (setN (-((pp - 1) * offN r)) r) td)
        | none => Except.error RErr.typeErr)
    return ⟨fd, td, tp.2⟩

/-- The labels produced by the first `fuel` iterations of
`XDateRange.__iter__`:

    cur = self.fromDate
    while cur <= self.toDate:
        yield cur
        cur = cur + offset
-/
def xdrYields (r : DOff) (t : PDate) : ℕ → PDate → List PDate
  | 0, _ => []
  | fuel + 1, cur =>
    if dle cur t then cur :: xdrYields r t fuel (applyD r cur) else []

/-- The iterator's cursor after `n` steps. -/
def applyIter (r : DOff) (n : ℕ) (d : PDate) : PDate := (applyD r)^[n] d

/-- The `while cur <= toDate` loop exits after finitely many steps. -/
def xdrTerminates (r : DOff) (f t : PDate) : Prop :=
  ∃ n, ¬ dle (applyIter r n f) t

def CACHE_START : PDate := ⟨1950, 1, 1⟩
def CACHE_END : PDate := ⟨2030, 1, 1⟩

/-- Modelled from the spec: `Index.asOfDate` (the `Index` class of
`pandas/core/index.py` is not among the source files).  Per the spec,
`asOf` returns the label equal to, or the greatest label strictly less
than, the query; it is only consulted here for dates absent from the
index. -/
def asOfDate (idx : List PDate) (d : PDate) : Option PDate :=
  (idx.filter (fun x => decide (dle x d))).getLast?

/-- `_getIndexLoc`: the exact position when the date is present, else one
past the as-of position; `none` is the failure of `index.asOfDate` for a
query below the index minimum (per the spec a `KeyNotFoundError`; in the
code the subsequent `indexMap[None]` raises `KeyError`). -/
def getIndexLoc (idx : List PDate) (d : PDate) : Option ℕ :=
  if d ∈ idx then some (idx.indexOf d)
  else
    match asOfDate idx d with
    | some a => some (idx.indexOf a + 1)
    | none => none

/-- The end bound used by `getCachedRange`: `indexMap[end] + 1` when
`end` is in the cached range, else `_getIndexLoc(cachedRange, end)`
(which can fail below the cache start). -/
def endLocOf (cached : List PDate) (e : PDate) : Option ℤ :=
  if e ∈ cached then some ((cached.indexOf e : ℤ) + 1)
  else (getIndexLoc cached e).map (fun n => (n : ℤ))

/-- Python list-slice index resolution (negative indices count from the
end, then clamp into `[0, n]`). -/
def pySliceIdx (n : ℕ) (i : ℤ) : ℕ :=
  if i < 0 then ((n : ℤ) + i).toNat else min i.toNat n

/-- `xs[a:b]` with Python slice semantics. -/
def pySlice {α : Type} (xs : List α) (a b : ℤ) : List α :=
  (xs.drop (pySliceIdx xs.length a)).take
    (pySliceIdx xs.length b - pySliceIdx xs.length a)

/-- The canonical dense range for one rule: `XDateRange(CACHE_START,
CACHE_END, offset=offset)` materialized (the class-level `_cache` always
holds exactly this list for the rule, so the memoization table itself
needs no state here).  The fuel bounds the 80-year window comfortably. -/
def cachedRangeFor (r : DOff) : List PDate :=
  match xdrInit (some CACHE_START) (some CACHE_END) none r with
  | .ok cfg => xdrYields r cfg.toDate 1000000 cfg.fromDate
  | .error _ => []

/-- `DateRange.getCachedRange`: argument validation, then position
lookups against the canonical cached range (each of which can raise the
as-of `KeyError` for a date below the cache start), then a Python slice.
In the start-and-periods branch the source computes `startLoc` BEFORE
checking `periods`, so a key failure wins over the missing-periods
error. -/
def getCachedRange (start end_ : Option PDate) (periods : Option ℤ)
    (off : Option DOff) : Except RErr (List PDate) :=
  match off with
  | none => .error .noOffset
  | some r =>
    let cached := cachedRangeFor r
    match start, end_ with
    | none, none => .error .needStartOrEnd
    | none, some e =>
      match periods with
      | none => .error .needPeriods
      | some p =>
        match endLocOf cached e with
        | none => .error .keyError
        | some endLoc => .ok (pySlice cached (endLoc - p) endLoc)
    | some s, none =>
      match getIndexLoc cached s with
      | none => .error .keyError
      | some startLoc =>
        match periods with
        | none => .error .needPeriods
        | some p =>
          .ok (pySlice cached (startLoc : ℤ) ((startLoc : ℤ) + p))
    | some s, some e =>
      match getIndexLoc cached s with
      | none => .error .keyError
      | some startLoc =>
        match endLocOf cached e with
        | none => .error .keyError
        | some endLoc => .ok (pySlice cached (startLoc : ℤ) endLoc)

/-! ## Claim C9: termination of `__iter__` -/

/-- C9 counterexample: with the zero-multiplier rule `BDay(0)` and
`fromDate = toDate = 2024-01-01` (a Monday, so `fromDate <= toDate`),
`cur + offset` returns `cur` itself — `BDay(0)` merely rolls a weekend
date forward and 2024-01-01 is already a business day — so the cursor
never moves and `while cur <= toDate` never exits. -/
theorem claim_C9_counterexample :
    ¬ xdrTerminates (.bday 0) ⟨2024, 1, 1⟩ ⟨2024, 1, 1⟩ := by
  rintro ⟨n, hn⟩
  apply hn
  have hfix : applyD (.bday 0) ⟨2024, 1, 1⟩ = ⟨2024, 1, 1⟩ := by decide
  unfold applyIter
  rw [Function.iterate_fixed hfix]
  exact le_refl (toRata ⟨2024, 1, 1⟩)

/-- C9 (amended): when the rule's multiplier is positive, every
application of the offset strictly advances the cursor, so iteration of
the range terminates after finitely many steps; with multiplier zero it
can loop forever (see the counterexample). -/
theorem claim_C9_terminates_pos (r : DOff) (f t : PDate)
    (hn : 1 ≤ offN r) (hw : wfOff r) (hv : PValid f) :
    xdrTerminates r f t := by
  suffices h : ∀ m g, PValid g → toRata t + 1 - toRata g ≤ m →
      xdrTerminates r g t by
    exact h (toRata t + 1 - toRata f) f hv (le_refl _)
  intro m
  induction m with
  | zero =>
    intro g hvg hm
    refine ⟨0, ?_⟩
    unfold applyIter
    simp only [Function.iterate_zero, id_eq]
    unfold dle
    omega
  | succ k ih =>
    intro g hvg hm
    by_cases hle : dle g t
    · have hp := applyD_pos_props r g hn hw hvg
      have hlt : dlt g (applyD r g) := hp.2.1
      unfold dle at hle
      unfold dlt at hlt
      obtain ⟨n2, hn2⟩ := ih (applyD r g) hp.1 (by omega)
      refine ⟨n2 + 1, ?_⟩
      unfold applyIter at hn2 ⊢
      rw [Function.iterate_add_apply]
      simpa using hn2
    · exact ⟨0, by unfold applyIter; simpa using hle⟩

/-- C9 witness: the amended theorem at `BDay(1)` from 2024-01-01 up to
2024-01-31. -/
theorem claim_C9_terminates_pos_witness :
    xdrTerminates (.bday 1) ⟨2024, 1, 1⟩ ⟨2024, 1, 31⟩ :=
  claim_C9_terminates_pos (.bday 1) ⟨2024, 1, 1⟩ ⟨2024, 1, 31⟩
    (by decide) trivial (by decide)

/-! ## Claim C6: labels strictly increase and lie on-offset -/

theorem offN_setN (k : ℤ) (r : DOff) : offN (setN k r) = k := by
  cases r <;> rfl

theorem onOffsetD_setN (k : ℤ) (r : DOff) (d : PDate) :
    onOffsetD (setN k r) d = onOffsetD r d := by
  cases r with
  | week n dow => cases dow <;> rfl
  | bday n => rfl
  | monthEnd n => rfl
  | bmonthEnd n => rfl
  | bquarterEnd n sm => rfl
  | yearEnd n => rfl
  | yearBegin n => rfl

theorem wfOff_setN (k : ℤ) (r : DOff) (hw : wfOff r) : wfOff (setN k r) := by
  cases r with
  | week n dow => cases dow <;> exact hw
  | bday n => exact hw
  | monthEnd n => exact hw
  | bmonthEnd n => exact hw
  | bquarterEnd n sm => exact hw
  | yearEnd n => exact hw
  | yearBegin n => exact hw

theorem hasOnOffsetTest_setN (k : ℤ) (r : DOff) (ht : hasOnOffsetTest r) :
    hasOnOffsetTest (setN k r) := by
  cases r with
  | week n dow => cases dow with
    | none => exact ht
    | some w => exact trivial
  | bday n => exact trivial
  | monthEnd n => exact trivial
  | bmonthEnd n => exact trivial
  | bquarterEnd n sm => exact trivial
  | yearEnd n => exact trivial
  | yearBegin n => exact trivial

/-- Rolling forward from a valid date lands on an on-offset date (and
stays valid), for every rule kind with a real membership test. -/
theorem rollforwardD_onOffset (r : DOff) (d : PDate) (hw : wfOff r)
    (ht : hasOnOffsetTest r) (hv : PValid d) :
    onOffsetD r (rollforwardD r d) = true ∧ PValid (rollforwardD r d) := by
  unfold rollforwardD
  by_cases h : onOffsetD r d = true
  · rw [if_pos h]; exact ⟨h, hv⟩
  · rw [if_neg h]
    have hp := applyD_pos_props (setN 1 r) d
      (by rw [offN_setN]) (wfOff_setN 1 r hw) hv
    refine ⟨?_, hp.1⟩
    have := hp.2.2 (hasOnOffsetTest_setN 1 r ht)
    rwa [onOffsetD_setN] at this

theorem xdrYields_head_eq (r : DOff) (t : PDate) (k : ℕ) (d : PDate) :
    ∀ y ∈ (xdrYields r t k d).head?, y = d := by
  cases k with
  | zero => intro y hy; simp [xdrYields] at hy
  | succ m =>
    intro y hy
    unfold xdrYields at hy
    by_cases h : dle d t
    · rw [if_pos h] at hy
      simp only [List.head?_cons, Option.mem_def, Option.some.injEq] at hy
      exact hy.symm
    · rw [if_neg h] at hy; simp at hy

/-- Every label stream a rule with positive multiplier can emit is
strictly increasing, and (when the rule has a membership test and starts
on-offset) consists of on-offset dates only. -/
theorem xdrYields_props (r : DOff) (t : PDate) (hn : 1 ≤ offN r)
    (hw : wfOff r) :
    ∀ fuel f, PValid f →
      List.Chain' dlt (xdrYields r t fuel f) ∧
      (hasOnOffsetTest r → onOffsetD r f = true →
        ∀ x ∈ xdrYields r t fuel f, onOffsetD r x = true) := by
  intro fuel
  induction fuel with
  | zero =>
    intro f hv
    refine ⟨by simp [xdrYields], ?_⟩
    intro _ _ x hx
    simp [xdrYields] at hx
  | succ k ih =>
    intro f hv
    unfold xdrYields
    by_cases hle : dle f t
    · rw [if_pos hle]
      have hp := applyD_pos_props r f hn hw hv
      obtain ⟨ihc, ihm⟩ := ih (applyD r f) hp.1
      constructor
      · rw [List.chain'_cons']
        refine ⟨?_, ihc⟩
        intro y hy
        have hyd := xdrYields_head_eq r t k (applyD r f) y hy
        rw [hyd]
        exact hp.2.1
      · intro ht hf x hx
        rcases List.mem_cons.mp hx with h | h
        · rw [h]; exact hf
        · exact ihm ht (hp.2.2 ht) x h
    · rw [if_neg hle]
      refine ⟨List.chain'_nil, ?_⟩
      intro _ _ x hx
      simp at hx

/-- When `fromDate` is supplied, `__init__` stores the rolled-forward
start `rollforwardD r f`, whatever the other arguments. -/
theorem xdrInit_fromDate (f : PDate) (t0 : Option PDate) (p : Option ℤ)
    (r : DOff) (cfg : XDRConfig)
    (h : xdrInit (some f) t0 p r = .ok cfg) :
    cfg.fromDate = rollforwardD r f := by
  unfold xdrInit at h
  dsimp only at h
  cases t0 with
  | none =>
    cases p with
    | none => simp [Bind.bind, Except.bind] at h
    | some pp =>
      simp only [Bind.bind, Except.bind, pure, Except.pure,
        Except.ok.injEq] at h
      rw [← h]
      rfl
  | some td0 =>
    dsimp only at h
    by_cases hon : onOffsetD r td0 = true
    · rw [if_pos hon] at h
      simp only [Bind.bind, Except.bind, pure, Except.pure,
        Except.ok.injEq] at h
      rw [← h]
      rfl
    · rw [if_neg hon] at h
      by_cases hc : p = none ∧ decide
          (dlt (applyD (setN (-1) r) td0)
            (if onOffsetD r f = true then f else applyD (setN 1 r) f)) =
            true
      · rw [if_pos hc] at h
        dsimp only at h
        simp only [Bind.bind, Except.bind, pure, Except.pure,
          Except.ok.injEq] at h
        rw [← h]
        rfl
      · rw [if_neg hc] at h
        dsimp only at h
        simp only [Bind.bind, Except.bind, pure, Except.pure,
          Except.ok.injEq] at h
        rw [← h]
        rfl

/-- C6 counterexample: `XDateRange(2024-01-01, 2024-01-01, offset=BDay(0))`
is accepted by `__init__` unchanged (2024-01-01 is a business day), yet the
iterator emits the same label twice — `BDay(0)` fixes business days, so the
cursor never advances — and a repeated label is not strictly increasing. -/
theorem claim_C6_counterexample :
    xdrInit (some ⟨2024, 1, 1⟩) (some ⟨2024, 1, 1⟩) none (.bday 0) =
        .ok ⟨⟨2024, 1, 1⟩, ⟨2024, 1, 1⟩, none⟩ ∧
    xdrYields (.bday 0) ⟨2024, 1, 1⟩ 2 ⟨2024, 1, 1⟩ =
        [⟨2024, 1, 1⟩, ⟨2024, 1, 1⟩] ∧
    ¬ List.Chain' dlt [(⟨2024, 1, 1⟩ : PDate), ⟨2024, 1, 1⟩] := by
  refine ⟨by rfl, by decide, ?_⟩
  intro hch
  have h2 : toRata (⟨2024, 1, 1⟩ : PDate) < toRata ⟨2024, 1, 1⟩ :=
    (List.chain'_cons.mp hch).1
  exact absurd h2 (lt_irrefl _)

/-- C6 (amended): for every rule with positive multiplier the emitted
label sequence is strictly increasing, and when the rule has an on-offset
membership test every emitted label satisfies it — the stored `fromDate`
is always the rolled-forward (hence on-offset) start.  The concrete
scenario holds as specified: the business-day range from 2024-01-01
(a Monday) with `periods=5` is exactly that week's Monday through Friday.
With multiplier zero the invariant fails (see the counterexample). -/
theorem claim_C6_strict_increasing (r : DOff) (t f : PDate) (fuel : ℕ)
    (t0 : Option PDate) (p : Option ℤ) (cfg : XDRConfig)
    (hn : 1 ≤ offN r) (hw : wfOff r) (hv : PValid f) :
    (List.Chain' dlt (xdrYields r t fuel f) ∧
      (hasOnOffsetTest r → onOffsetD r f = true →
        ∀ x ∈ xdrYields r t fuel f, onOffsetD r x = true)) ∧
    (hasOnOffsetTest r → xdrInit (some f) t0 p r = .ok cfg →
      onOffsetD r cfg.fromDate = true) ∧
    (xdrInit (some ⟨2024, 1, 1⟩) none (some 5) (.bday 1) =
        .ok ⟨⟨2024, 1, 1⟩, ⟨2024, 1, 5⟩, some 5⟩ ∧
      xdrYields (.bday 1) ⟨2024, 1, 5⟩ 10 ⟨2024, 1, 1⟩ =
        [⟨2024, 1, 1⟩, ⟨2024, 1, 2⟩, ⟨2024, 1, 3⟩, ⟨2024, 1, 4⟩,
          ⟨2024, 1, 5⟩]) := by
  refine ⟨xdrYields_props r t hn hw fuel f hv, ?_, by rfl, by decide⟩
  intro ht hinit
  rw [xdrInit_fromDate f t0 p r cfg hinit]
  exact (rollforwardD_onOffset r f hw ht hv).1

/-- C6 witness: the amended theorem instantiated at `BDay(1)`,
`fromDate = 2024-01-01`, `toDate = 2024-01-05`. -/
theorem claim_C6_strict_increasing_witness :
    (List.Chain' dlt (xdrYields (.bday 1) ⟨2024, 1, 5⟩ 10 ⟨2024, 1, 1⟩) ∧
      (hasOnOffsetTest (.bday 1) → onOffsetD (.bday 1) ⟨2024, 1, 1⟩ = true →
        ∀ x ∈ xdrYields (.bday 1) ⟨2024, 1, 5⟩ 10 ⟨2024, 1, 1⟩,
          onOffsetD (.bday 1) x = true)) ∧
    (hasOnOffsetTest (.bday 1) →
      xdrInit (some ⟨2024, 1, 1⟩) none (some 5) (.bday 1) =
        .ok ⟨⟨2024, 1, 1⟩, ⟨2024, 1, 5⟩, some 5⟩ →
      onOffsetD (.bday 1)
        (XDRConfig.fromDate ⟨⟨2024, 1, 1⟩, ⟨2024, 1, 5⟩, some 5⟩) = true) ∧
    (xdrInit (some ⟨2024, 1, 1⟩) none (some 5) (.bday 1) =
        .ok ⟨⟨2024, 1, 1⟩, ⟨2024, 1, 5⟩, some 5⟩ ∧
      xdrYields (.bday 1) ⟨2024, 1, 5⟩ 10 ⟨2024, 1, 1⟩ =
        [⟨2024, 1, 1⟩, ⟨2024, 1, 2⟩, ⟨2024, 1, 3⟩, ⟨2024, 1, 4⟩,
          ⟨2024, 1, 5⟩]) :=
  claim_C6_strict_increasing (.bday 1) ⟨2024, 1, 5⟩ ⟨2024, 1, 1⟩ 10
    none (some 5) ⟨⟨2024, 1, 1⟩, ⟨2024, 1, 5⟩, some 5⟩
    (by decide) trivial (by decide)

/-! ## Claim C4: which argument combinations are accepted -/

theorem xdrInit_some_some_isOk (fd td : PDate) (p : Option ℤ) (r : DOff) :
    (xdrInit (some fd) (some td) p r).isOk = true := by
  unfold xdrInit
  dsimp only
  by_cases hon : onOffsetD r td = true
  · rw [if_pos hon]
    rfl
  · rw [if_neg hon]
    by_cases hc : p = none ∧ decide
        (dlt (applyD (setN (-1) r) td)
          (if onOffsetD r fd = true then fd else applyD (setN 1 r) fd)) =
          true
    · rw [if_pos hc]
      rfl
    · rw [if_neg hc]
      rfl

theorem xdrInit_none_some_none_isOk (td : PDate) (r : DOff) :
    (xdrInit none (some td) none r).isOk = false := by
  unfold xdrInit
  dsimp only
  by_cases hon : onOffsetD r td = true
  · rw [if_pos hon]
    rfl
  · rw [if_neg hon]
    rfl

theorem xdrInit_none_some_some_isOk (td : PDate) (pp : ℤ) (r : DOff) :
    (xdrInit none (some td) (some pp) r).isOk = true := by
  unfold xdrInit
  dsimp only
  by_cases hon : onOffsetD r td = true
  · rw [if_pos hon]
    rfl
  · rw [if_neg hon]
    rfl

theorem xdrInit_isOk (f t : Option PDate) (p : Option ℤ) (r : DOff) :
    (xdrInit f t p r).isOk = true ↔
      ((f ≠ none ∧ t ≠ none) ∨ (f ≠ none ∧ p ≠ none) ∨
        (t ≠ none ∧ p ≠ none)) := by
  rcases f with _ | fd <;> rcases t with _ | td <;> rcases p with _ | pp
  · exact iff_of_false
      (by rw [show (xdrInit none none none r).isOk = false from rfl]
          exact Bool.false_ne_true) (by simp)
  · exact iff_of_false
      (by rw [show (xdrInit none none (some pp) r).isOk = false from rfl]
          exact Bool.false_ne_true) (by simp)
  · exact iff_of_false
      (by rw [xdrInit_none_some_none_isOk td r]
          exact Bool.false_ne_true) (by simp)
  · exact iff_of_true (xdrInit_none_some_some_isOk td pp r) (by simp)
  · exact iff_of_false
      (by rw [show (xdrInit (some fd) none none r).isOk = false from rfl]
          exact Bool.false_ne_true) (by simp)
  · exact iff_of_true (by rfl) (by simp)
  · exact iff_of_true (xdrInit_some_some_isOk fd td none r) (by simp)
  · exact iff_of_true (xdrInit_some_some_isOk fd td (some pp) r) (by simp)

theorem getCachedRange_isOk (s e : Option PDate) (p : Option ℤ)
    (off : Option DOff) :
    (getCachedRange s e p off).isOk = true ↔
      (∃ r, off = some r ∧
        ((s ≠ none ∧ e ≠ none) ∨ (s ≠ none ∧ p ≠ none) ∨
          (e ≠ none ∧ p ≠ none)) ∧
        (∀ d, s = some d →
          (getIndexLoc (cachedRangeFor r) d).isSome = true) ∧
        (∀ d, e = some d →
          (endLocOf (cachedRangeFor r) d).isSome = true)) := by
  rcases off with _ | r
  · simp [getCachedRange, Except.isOk, Except.toBool]
  · rcases s with _ | sd <;> rcases e with _ | ed
    · rcases p with _ | pp <;>
        simp [getCachedRange, Except.isOk, Except.toBool]
    · rcases p with _ | pp
      · simp [getCachedRange, Except.isOk, Except.toBool]
      · cases hel : endLocOf (cachedRangeFor r) ed with
        | none => simp [getCachedRange, hel, Except.isOk, Except.toBool]
        | some el => simp [getCachedRange, hel, Except.isOk, Except.toBool]
    · cases hsl : getIndexLoc (cachedRangeFor r) sd with
      | none =>
        rcases p with _ | pp <;>
          simp [getCachedRange, hsl, Except.isOk, Except.toBool]
      | some sl =>
        rcases p with _ | pp <;>
          simp [getCachedRange, hsl, Except.isOk, Except.toBool]
    · cases hsl : getIndexLoc (cachedRangeFor r) sd with
      | none => simp [getCachedRange, hsl, Except.isOk, Except.toBool]
      | some sl =>
        cases hel : endLocOf (cachedRangeFor r) ed with
        | none =>
          simp [getCachedRange, hsl, hel, Except.isOk, Except.toBool]
        | some el =>
          simp [getCachedRange, hsl, hel, Except.isOk, Except.toBool]

/-- C4 counterexample: `XDateRange.__init__` with ALL THREE of from, to
and periods supplied — an inconsistent triple at that (3 periods over a
span of 6 business days) — is accepted, not rejected: the constructor
simply stores all three.  (No `AmbiguousRangeSpecification` exists in
the code; the failures that do occur are plain `Exception`s,
`TypeError`s and the as-of `KeyError`.) -/
theorem claim_C4_counterexample :
    (xdrInit (some ⟨2024, 1, 2⟩) (some ⟨2024, 1, 9⟩) (some 3)
        (.bday 1)).isOk = true ∧
    (xdrInit (some ⟨2024, 1, 2⟩) none none (.bday 1)).isOk = false := by
  exact ⟨by rfl, by rfl⟩

/-- C4 (amended): no constructor demands exactly two of
{from, to, periods}, no consistency of the triple is checked, and no
`AmbiguousRangeSpecification` exists.  The actual rules:
`XDateRange.__init__` succeeds iff at least two of the three are
supplied (a missing operand propagates as `TypeError`), and
`DateRange.getCachedRange` succeeds iff an offset is supplied, at least
two of {start, end, periods} are supplied, AND every supplied endpoint
resolves against the cached 1950-2030 range — an endpoint below the
cache start makes the `asOfDate` lookup fail (`KeyError`) even when two
or three arguments are present.  All three together are accepted, with
`periods` ignored when both endpoints are present. -/
theorem claim_C4_acceptance (s e : Option PDate) (p : Option ℤ)
    (off : Option DOff) (r : DOff) :
    ((xdrInit s e p r).isOk = true ↔
      ((s ≠ none ∧ e ≠ none) ∨ (s ≠ none ∧ p ≠ none) ∨
        (e ≠ none ∧ p ≠ none))) ∧
    ((getCachedRange s e p off).isOk = true ↔
      (∃ r2, off = some r2 ∧
        ((s ≠ none ∧ e ≠ none) ∨ (s ≠ none ∧ p ≠ none) ∨
          (e ≠ none ∧ p ≠ none)) ∧
        (∀ d, s = some d →
          (getIndexLoc (cachedRangeFor r2) d).isSome = true) ∧
        (∀ d, e = some d →
          (endLocOf (cachedRangeFor r2) d).isSome = true))) :=
  ⟨xdrInit_isOk s e p r, getCachedRange_isOk s e p off⟩

/-! ## Panel structures (`pandas/core/panel.py`)

Cell values are `Option ℚ`: `none` is `NaN` (a missing observation,
`np.isfinite` false), `some q` a finite float. -/

/-- Errors of the panel layer: `inconsistent` and `shapeMismatch` are the
two `PanelError`s, the rest are plain `Exception`s. -/
inductive PErr where
  | inconsistent
  | shapeMismatch
  | invalidAxis
  | lenMismatch
  deriving DecidableEq, Repr

/-- A `LongPanel` together with its `LongPanelIndex`: `majL`/`minL` are
`major_labels`/`minor_labels` (positions into axes of sizes `Nmaj`,
`Nmin`), and `vals` the `(len, I)` value matrix, one length-`I` row per
observation. -/
structure LongP where
  I : ℕ
  Nmaj : ℕ
  Nmin : ℕ
  majL : List ℕ
  minL : List ℕ
  vals : List (List (Option ℚ))
  deriving DecidableEq, Repr

/-- Well-formedness of a `LongPanel`: parallel label arrays of one common
length, label entries that are valid axis positions, and value rows of
width `I`. -/
def LongP.valid (p : LongP) : Prop :=
  p.majL.length = p.minL.length ∧ p.vals.length = p.majL.length ∧
    (∀ a ∈ p.majL, a < p.Nmaj) ∧ (∀ b ∈ p.minL, b < p.Nmin) ∧
    (∀ r ∈ p.vals, r.length = p.I)

/-- The key array of `LongPanelIndex.consistent`:
`offset = max(len(major_axis), len(minor_axis))`; when `(offset+1)**2`
exceeds the 32-bit range the keys are computed in int64 (exact), else in
the default int32 arithmetic, whose wraparound to signed 32-bit values is
modelled exactly. -/
def panelKeys (p : LongP) : List ℤ :=
  let offset := max p.Nmaj p.Nmin
  if (offset + 1) ^ 2 > 2 ^ 32 then
    List.zipWith (fun a b => ((a * offset + b : ℕ) : ℤ)) p.majL p.minL
  else
    List.zipWith
      (fun a b =>
        let v : ℕ := (a * offset + b) % 2 ^ 32
        if v < 2 ^ 31 then (v : ℤ) else (v : ℤ) - 2 ^ 32)
      p.majL p.minL

/-- `LongPanelIndex.consistent`: true iff the keys are pairwise
distinct (`len(np.unique(keys)) == len(keys)`). -/
def consistentL (p : LongP) : Bool := decide (panelKeys p).Nodup

/-- The flat observation selector of `LongPanelIndex._makeMask`:
`selector = minor_labels + K * major_labels` with `K = len(minor_axis)`. -/
def selectorList (p : LongP) : List ℕ :=
  List.zipWith (fun a b => b + p.Nmin * a) p.majL p.minL

/-- One item plane of the `toWide` scatter
`values[i].flat[mask] = self.values[:, i]` followed by
`values[i].flat[notmask] = np.NaN`: flat position `f` is `True` in the
mask iff it occurs in the selector, and the `j`-th `True` position in
ascending flat order receives the `j`-th source row.  (For the
duplicate-free selectors `toWide` guards for, the rank of a `True`
position is the number of selector entries below it.) -/
def flatAssign (sel : List ℕ) (src : List (Option ℚ)) (f : ℕ) : Option ℚ :=
  if sel.contains f then
    src.getD ((sel.filter (fun s => decide (s < f))).length) none
  else none

/-- A `WidePanel`'s value cube as produced by `toWide`: per item, the
flattened `N x K` plane. -/
structure WideP where
  I : ℕ
  Nmaj : ℕ
  Nmin : ℕ
  wvals : List (List (Option ℚ))
  deriving DecidableEq, Repr

/-- `LongPanel.toWide`: raises `PanelError` when the index is not
consistent, otherwise scatters column `i` of the long values into item
plane `i` using the flat observation mask. -/
def toWideF (p : LongP) : Except PErr WideP :=
  if consistentL p then
    .ok ⟨p.I, p.Nmaj, p.Nmin,
      (List.range p.I).map (fun i =>
        (List.range (p.Nmaj * p.Nmin)).map
          (flatAssign (selectorList p)
            (p.vals.map (fun r => r.getD i none))))⟩
  else .error .inconsistent

/-- `np.isfinite(values).all(axis=0)` at flat position `f`. -/
def allFiniteAt (w : WideP) (f : ℕ) : Bool :=
  w.wvals.all (fun item => (item.getD f none).isSome)

/-- `WidePanel.toLong` with `filter_observations=True`: keep the flat
positions (in ascending ravel order) at which every item is finite;
`major_labels = arange(N).repeat(K)[selector]` is `f / K` and
`minor_labels` is `f % K`; the value row collects the items. -/
def toLongF (w : WideP) : LongP :=
  let kept := (List.range (w.Nmaj * w.Nmin)).filter (allFiniteAt w)
  { I := w.I, Nmaj := w.Nmaj, Nmin := w.Nmin,
    majL := kept.map (fun f => f / w.Nmin),
    minL := kept.map (fun f => f % w.Nmin),
    vals := kept.map (fun f => w.wvals.map (fun item => item.getD f none)) }

/-- The observation rows of a long panel, as
`(major_label, minor_label, value row)` triples. -/
def LongP.rows (p : LongP) : List (ℕ × ℕ × List (Option ℚ)) :=
  p.majL.zip (p.minL.zip p.vals)

/-- Row comparison used by `LongPanel.sort(axis='major')`:
`np.lexsort((minor_labels, major_labels))` orders by major label, ties by
minor label. -/
def rowLE (a b : ℕ × ℕ × List (Option ℚ)) : Bool :=
  a.1 < b.1 || (a.1 == b.1 && a.2.1 ≤ b.2.1)

/-- `LongPanel.sort(axis='major')`: reorder labels and values by the
lexsort permutation (`np.lexsort` is a stable sort, so a stable
insertion sort models it). -/
def sortMajor (p : LongP) : LongP :=
  let rs := p.rows.insertionSort (fun a b => rowLE a b = true)
  { I := p.I, Nmaj := p.Nmaj, Nmin := p.Nmin,
    majL := rs.map (fun r => r.1),
    minL := rs.map (fun r => r.2.1),
    vals := rs.map (fun r => r.2.2) }

/-- `Index(sorted(set(xs)))`. -/
def uniqSorted (xs : List ℤ) : List ℤ :=
  xs.dedup.insertionSort (fun a b => a ≤ b)

/-- Python dict assignment `d[k] = v` on an association list. -/
def dictSet {α β : Type} [BEq α] (d : List (α × β)) (k : α) (v : β) :
    List (α × β) :=
  if d.any (fun kv => kv.1 == k) then
    d.map (fun kv => if kv.1 == k then (k, v) else kv)
  else d ++ [(k, v)]

/-- `_slow_pivot`: `tree[col][idx] = values[i]` over the rows in order
(later duplicates overwrite earlier ones); the resulting
column-to-branch dictionary. -/
def slowPivot (index columns : List ℤ) (values : List ℚ) :
    List (ℤ × List (ℤ × ℚ)) :=
  (index.zip (columns.zip values)).foldl
    (fun tree r =>
      let branch := ((tree.find? (fun kv => kv.1 == r.2.1)).map
        (fun kv => kv.2)).getD []
      dictSet tree r.2.1 (dictSet branch r.1 r.2.2))
    []

/-- The single-item (`['foo']`) long panel `pivot` builds: labels are
positions into the sorted deduplicated axes, values the `(len, 1)`
matrix. -/
def pivotLong (index columns : List ℤ) (values : List ℚ) : LongP :=
  { I := 1,
    Nmaj := (uniqSorted index).length,
    Nmin := (uniqSorted columns).length,
    majL := index.map (fun x => (uniqSorted index).indexOf x),
    minL := columns.map (fun x => (uniqSorted columns).indexOf x),
    vals := values.map (fun v => [some v]) }

/-- The three possible results of `pivot`: an empty frame, the wide
panel route, or the `_slow_pivot` fallback. -/
inductive PivotRes where
  | empty
  | fromWide (w : WideP)
  | fallback (tree : List (ℤ × List (ℤ × ℚ)))
  deriving DecidableEq, Repr

/-- `pivot(index, columns, values)`: checks the common length, builds
the sorted single-item long panel, and attempts `toWide()`; a
`PanelError` raised there is caught and answered with
`_slow_pivot(index, columns, values)`. -/
def pivotF (index columns : List ℤ) (values : List ℚ) :
    Except PErr PivotRes :=
  if index.length = columns.length ∧ columns.length = values.length then
    if index.length = 0 then .ok .empty
    else
      match toWideF (sortMajor (pivotLong index columns values)) with
      | .ok w => .ok (.fromWide w)
      | .error _ => .ok (.fallback (slowPivot index columns values))
  else .error .lenMismatch

/-- `group_agg(values, bounds, f)` for a 1-D values array: group `i`
aggregates the half-open slice `values[bounds[i] : bounds[i+1]]`, with
the last group extending to the end of the array.  (The
`does not aggregate` guard concerns 2-D aggregators returning 2-D
arrays; a scalar-valued `f` on a 1-D array never trips it.) -/
def groupAgg (values : List ℚ) (bounds : List ℕ) (f : List ℚ → ℚ) :
    List ℚ :=
  (List.range bounds.length).map (fun i =>
    let left := bounds.getD i 0
    let right := if i = bounds.length - 1 then values.length
      else bounds.getD (i + 1) 0
    f ((values.drop left).take (right - left)))

/-! ### `WidePanel.shift` -/

/-- An `(I, N, K)` value cube in row-major flat layout, shape carried
explicitly (as numpy does, also for empty arrays). -/
structure Cube3 where
  ni : ℕ
  nn : ℕ
  nk : ℕ
  flat : List (Option ℚ)
  deriving DecidableEq, Repr

def cubeGet (c : Cube3) (i n k : ℕ) : Option ℚ :=
  c.flat.getD ((i * c.nn + n) * c.nk + k) none

def cubeFromFn (ni nn nk : ℕ) (g : ℕ → ℕ → ℕ → Option ℚ) : Cube3 :=
  ⟨ni, nn, nk,
    (List.range (ni * nn * nk)).map (fun idx =>
      g (idx / (nn * nk)) (idx / nk % nn) (idx % nk))⟩

/-- The length of `l[:-lags]` for a length-`n` axis: Python's `-0` is
`0`, so `lags = 0` slices the axis down to nothing. -/
def pyNegStopLen (n lags : ℕ) : ℕ := if lags = 0 then 0 else n - lags

/-- `values[:, :-lags, :]`. -/
def sliceMajorCube (c : Cube3) (lags : ℕ) : Cube3 :=
  cubeFromFn c.ni (pyNegStopLen c.nn lags) c.nk (fun i n k => cubeGet c i n k)

/-- `values[:, :, :-lags]`. -/
def sliceMinorCube (c : Cube3) (lags : ℕ) : Cube3 :=
  cubeFromFn c.ni c.nn (pyNegStopLen c.nk lags) (fun i n k => cubeGet c i n k)

/-- A `WidePanel`: three labelled axes and the value cube. -/
structure WPanel where
  items : List ℤ
  majorAxis : List ℤ
  minorAxis : List ℤ
  cube : Cube3
  deriving DecidableEq, Repr

/-- The `WidePanel` constructor through `_set_values`: raises
`PanelError` when `self.dims != values.shape`. -/
def mkWidePanel (values : Cube3) (items majorAxis minorAxis : List ℤ) :
    Except PErr WPanel :=
  if values.ni = items.length ∧ values.nn = majorAxis.length ∧
      values.nk = minorAxis.length then
    .ok ⟨items, majorAxis, minorAxis, values⟩
  else .error .shapeMismatch

/-- `WidePanel.shift(lags, axis)`: slice the cube by `:-lags` along the
axis but keep the axis labels from `lags:` on, and rebuild the panel
(which re-checks shapes). -/
def shiftWP (p : WPanel) (lags : ℕ) (axis : String) : Except PErr WPanel :=
  if axis == "major" then
    mkWidePanel (sliceMajorCube p.cube lags) p.items
      (p.majorAxis.drop lags) p.minorAxis
  else if axis == "minor" then
    mkWidePanel (sliceMinorCube p.cube lags) p.items
      p.majorAxis (p.minorAxis.drop lags)
  else .error .invalidAxis

/-! ## Claim C10: `shift` with `lags=0` -/

/-- C10.  On a panel whose cube shape matches its axes, `shift(0)` along
the major (resp. minor) axis slices the cube to a zero-length axis
(`:-0` is `:0`) while keeping all axis labels, so rebuilding the panel
raises the shape-mismatch `PanelError` whenever that axis is non-empty;
for every `lags >= 1` the rebuild succeeds. -/
theorem claim_C10_shift_zero (p : WPanel)
    (hI : p.cube.ni = p.items.length)
    (hN : p.cube.nn = p.majorAxis.length)
    (hK : p.cube.nk = p.minorAxis.length) :
    (p.majorAxis ≠ [] → shiftWP p 0 "major" = .error .shapeMismatch) ∧
    (p.minorAxis ≠ [] → shiftWP p 0 "minor" = .error .shapeMismatch) ∧
    (∀ lags : ℕ, 1 ≤ lags → (shiftWP p lags "major").isOk = true) := by
  refine ⟨?_, ?_, ?_⟩
  · intro hmaj
    unfold shiftWP mkWidePanel sliceMajorCube cubeFromFn pyNegStopLen
    simp only [beq_self_eq_true, if_true]
    rw [if_neg]
    intro hc
    have h0 : (0 : ℕ) = p.majorAxis.length := by
      have := hc.2.1
      simpa using this
    exact hmaj (List.eq_nil_of_length_eq_zero h0.symm)
  · intro hmin
    unfold shiftWP mkWidePanel sliceMinorCube cubeFromFn pyNegStopLen
    have hms : ("minor" == "major") = false := by decide
    rw [hms]
    simp only [Bool.false_eq_true, if_false, beq_self_eq_true, if_true]
    rw [if_neg]
    intro hc
    have h0 : (0 : ℕ) = p.minorAxis.length := by
      have := hc.2.2
      simpa using this
    exact hmin (List.eq_nil_of_length_eq_zero h0.symm)
  · intro lags hl
    unfold shiftWP mkWidePanel sliceMajorCube cubeFromFn pyNegStopLen
    simp only [beq_self_eq_true, if_true]
    rw [if_pos]
    · rfl
    · refine ⟨hI, ?_, hK⟩
      have hlz : ¬ lags = 0 := by omega
      rw [if_neg hlz, List.length_drop, hN]

/-- C10 witness: a 1 x 2 x 1 panel. -/
theorem claim_C10_shift_zero_witness :
    (([(1 : ℤ), 2] : List ℤ) ≠ [] →
      shiftWP ⟨[7], [1, 2], [3], ⟨1, 2, 1, [some 1, some 2]⟩⟩ 0 "major" =
        .error .shapeMismatch) ∧
    (([(3 : ℤ)] : List ℤ) ≠ [] →
      shiftWP ⟨[7], [1, 2], [3], ⟨1, 2, 1, [some 1, some 2]⟩⟩ 0 "minor" =
        .error .shapeMismatch) ∧
    (∀ lags : ℕ, 1 ≤ lags →
      (shiftWP ⟨[7], [1, 2], [3], ⟨1, 2, 1, [some 1, some 2]⟩⟩ lags
        "major").isOk = true) :=
  claim_C10_shift_zero ⟨[7], [1, 2], [3], ⟨1, 2, 1, [some 1, some 2]⟩⟩
    (by decide) (by decide) (by decide)

/-! ## Claim C8: `group_agg` -/

theorem getD_map_range {β : Type} (g : ℕ → β) (n i : ℕ) (d : β)
    (h : i < n) : ((List.range n).map g).getD i d = g i := by
  rw [List.getD_eq_getElem?_getD, List.getElem?_map, List.getElem?_range h]
  rfl

/-- C8.  `group_agg` returns one output per bound; output `i` is the
aggregator applied to the half-open slice `values[bounds[i] :
bounds[i+1]]`, the last group extending to the end of the values array;
on sorted values `[1,2,3,4,5,6]` with `bounds = [0,2,2,4]` and `sum` the
result is `[3, 0, 7, 11]` (the empty group aggregating to `sum`'s value
on the empty slice, `0`). -/
theorem claim_C8_group_agg (values : List ℚ) (bounds : List ℕ)
    (f : List ℚ → ℚ) :
    (groupAgg values bounds f).length = bounds.length ∧
    (∀ i : Fin bounds.length,
      (groupAgg values bounds f).getD i.1 0 =
        f ((values.drop (bounds.getD i.1 0)).take
          ((if i.1 = bounds.length - 1 then values.length
            else bounds.getD (i.1 + 1) 0) - bounds.getD i.1 0))) ∧
    groupAgg [1, 2, 3, 4, 5, 6] [0, 2, 2, 4] (fun l => l.sum) =
      [3, 0, 7, 11] := by
  refine ⟨by simp [groupAgg], ?_, by norm_num [groupAgg, List.range_succ]⟩
  intro i
  unfold groupAgg
  rw [getD_map_range _ _ _ _ i.2]

/-! ## Claim C3: `pivot` catches `PanelError` -/

/-- C3 counterexample: pivoting the duplicated triple
`index=[0,0], columns=[0,0], values=[1,2]` makes the internal
`toWide()` raise the duplicate-pairs `PanelError`, yet `pivot` returns a
result — the `_slow_pivot` fallback (in which the later duplicate has
silently overwritten the earlier one) — instead of propagating the
error. -/
theorem claim_C3_counterexample :
    toWideF (sortMajor (pivotLong [0, 0] [0, 0] [1, 2])) =
        .error .inconsistent ∧
    pivotF [0, 0] [0, 0] [1, 2] = .ok (.fallback [(0, [(0, 2)])]) := by
  exact ⟨by rfl, by rfl⟩

/-- C3 (amended): core errors other than this one do fail fast, but the
duplicate-pairs `PanelError` raised by `toWide` on behalf of `pivot` IS
caught internally: whenever the inputs share a length and the wide
conversion of the sorted single-item panel fails, `pivot` swallows the
error and returns the `_slow_pivot` fallback result. -/
theorem claim_C3_pivot_swallows (index columns : List ℤ)
    (values : List ℚ) (er : PErr)
    (hlen : index.length = columns.length ∧
      columns.length = values.length)
    (hne : index.length ≠ 0)
    (herr : toWideF (sortMajor (pivotLong index columns values)) =
      .error er) :
    pivotF index columns values =
      .ok (.fallback (slowPivot index columns values)) := by
  unfold pivotF
  rw [if_pos hlen, if_neg hne, herr]

/-- C3 witness: the amended theorem at the duplicated concrete input. -/
theorem claim_C3_pivot_swallows_witness :
    pivotF [0, 0] [0, 0] [1, 2] =
      .ok (.fallback (slowPivot [0, 0] [0, 0] [1, 2])) :=
  claim_C3_pivot_swallows [0, 0] [0, 0] [1, 2] .inconsistent
    (by decide) (by decide) (by rfl)

/-! ## Claim C1: `consistent` and the `toWide` duplicate check -/

theorem zipWith_eq_map_zip {α β γ : Type} (f : α → β → γ) :
    ∀ (l1 : List α) (l2 : List β),
      List.zipWith f l1 l2 = (l1.zip l2).map (fun q => f q.1 q.2) := by
  intro l1
  induction l1 with
  | nil => intro l2; rfl
  | cons a tl ih =>
    intro l2
    cases l2 with
    | nil => rfl
    | cons b tl2 => simp [List.zip_cons_cons, ih]

theorem encNat_inj (K a b c d : ℕ) (hb : b < K) (hd : d < K)
    (h : a * K + b = c * K + d) : a = c ∧ b = d := by
  have hK : 0 < K := by omega
  constructor
  · have h1 : (a * K + b) / K = a := by
      rw [Nat.mul_comm a K, Nat.mul_add_div hK, Nat.div_eq_of_lt hb]
      omega
    have h2 : (c * K + d) / K = c := by
      rw [Nat.mul_comm c K, Nat.mul_add_div hK, Nat.div_eq_of_lt hd]
      omega
    rw [← h1, ← h2, h]
  · have h1 : (a * K + b) % K = b := by
      rw [Nat.mul_comm a K, Nat.mul_add_mod, Nat.mod_eq_of_lt hb]
    have h2 : (c * K + d) % K = d := by
      rw [Nat.mul_comm c K, Nat.mul_add_mod, Nat.mod_eq_of_lt hd]
    rw [← h1, ← h2, h]

/-- The raw key of a valid pair is below `2^32` whenever the widening
guard `(offset+1)^2 > 2^32` did NOT fire, so int32 wraparound never
conflates distinct keys. -/
theorem rawKey_lt (offset a b : ℕ) (ha : a < offset) (hb : b < offset)
    (hov : ¬ (offset + 1) ^ 2 > 2 ^ 32) : a * offset + b < 2 ^ 32 := by
  have h1 : (a + 1) * offset ≤ offset * offset :=
    Nat.mul_le_mul_right offset ha
  have h2 : a * offset + b < (a + 1) * offset := by
    have : a * offset + b < a * offset + offset := by omega
    calc a * offset + b < a * offset + offset := this
      _ = (a + 1) * offset := by ring
  have h3 : offset * offset < (offset + 1) ^ 2 := by nlinarith
  omega

theorem panelKeys_nodup_iff (p : LongP) (hv : p.valid) :
    (panelKeys p).Nodup ↔ (p.majL.zip p.minL).Nodup := by
  obtain ⟨hlen, hvl, hmaj, hmin, hrows⟩ := hv
  unfold panelKeys
  by_cases hov : (max p.Nmaj p.Nmin + 1) ^ 2 > 2 ^ 32
  · rw [if_pos hov, zipWith_eq_map_zip]
    constructor
    · exact fun h => h.of_map _
    · intro h
      refine h.map_on ?_
      intro x hx y hy hxy
      obtain ⟨hx1, hx2⟩ := List.of_mem_zip hx
      obtain ⟨hy1, hy2⟩ := List.of_mem_zip hy
      have hb : x.2 < max p.Nmaj p.Nmin := lt_of_lt_of_le (hmin _ hx2) (le_max_right _ _)
      have hd : y.2 < max p.Nmaj p.Nmin := lt_of_lt_of_le (hmin _ hy2) (le_max_right _ _)
      have hnat : x.1 * max p.Nmaj p.Nmin + x.2 =
          y.1 * max p.Nmaj p.Nmin + y.2 := by exact_mod_cast hxy
      obtain ⟨e1, e2⟩ := encNat_inj _ _ _ _ _ hb hd hnat
      exact Prod.ext e1 e2
  · rw [if_neg hov, zipWith_eq_map_zip]
    constructor
    · exact fun h => h.of_map _
    · intro h
      refine h.map_on ?_
      intro x hx y hy hxy
      obtain ⟨hx1, hx2⟩ := List.of_mem_zip hx
      obtain ⟨hy1, hy2⟩ := List.of_mem_zip hy
      have ha : x.1 < max p.Nmaj p.Nmin := lt_of_lt_of_le (hmaj _ hx1) (le_max_left _ _)
      have hb : x.2 < max p.Nmaj p.Nmin := lt_of_lt_of_le (hmin _ hx2) (le_max_right _ _)
      have hc : y.1 < max p.Nmaj p.Nmin := lt_of_lt_of_le (hmaj _ hy1) (le_max_left _ _)
      have hd : y.2 < max p.Nmaj p.Nmin := lt_of_lt_of_le (hmin _ hy2) (le_max_right _ _)
      have hu : x.1 * max p.Nmaj p.Nmin + x.2 < 2 ^ 32 :=
        rawKey_lt _ _ _ ha hb hov
      have hw : y.1 * max p.Nmaj p.Nmin + y.2 < 2 ^ 32 :=
        rawKey_lt _ _ _ hc hd hov
      dsimp only at hxy
      rw [Nat.mod_eq_of_lt hu, Nat.mod_eq_of_lt hw] at hxy
      have hnat : x.1 * max p.Nmaj p.Nmin + x.2 =
          y.1 * max p.Nmaj p.Nmin + y.2 := by
        split_ifs at hxy <;> omega
      obtain ⟨e1, e2⟩ := encNat_inj _ _ _ _ _ hb hd hnat
      exact Prod.ext e1 e2

/-- C1.  For a well-formed stacked panel index, `toWide` fails with the
duplicate-pairs `PanelError` if and only if some `(major, minor)` label
pair occurs more than once: the `consistent` check's key encoding
`major * offset + minor` (with `offset = max(len(major_axis),
len(minor_axis))` and the int64 widening guard) identifies keys with
pairs exactly. -/
theorem claim_C1_toWide_error_iff (p : LongP) (hv : p.valid) :
    toWideF p = .error .inconsistent ↔ ¬ (p.majL.zip p.minL).Nodup := by
  unfold toWideF
  by_cases hc : consistentL p = true
  · rw [if_pos hc]
    refine iff_of_false (by intro h; exact Except.noConfusion h) ?_
    intro hnd
    exact hnd ((panelKeys_nodup_iff p hv).mp (of_decide_eq_true hc))
  · rw [if_neg hc]
    refine iff_of_true rfl ?_
    intro hnd
    exact hc (decide_eq_true ((panelKeys_nodup_iff p hv).mpr hnd))

/-- C1 witness: a panel with a duplicated `(0, 0)` pair errors; the same
panel with distinct pairs does not. -/
theorem claim_C1_toWide_error_iff_witness :
    (toWideF ⟨1, 1, 1, [0, 0], [0, 0], [[some 1], [some 2]]⟩ =
        .error .inconsistent ↔
      ¬ (([0, 0] : List ℕ).zip ([0, 0] : List ℕ)).Nodup) ∧
    (toWideF ⟨1, 2, 1, [0, 1], [0, 0], [[some 1], [some 2]]⟩ =
        .error .inconsistent ↔
      ¬ (([0, 1] : List ℕ).zip ([0, 0] : List ℕ)).Nodup) :=
  ⟨claim_C1_toWide_error_iff ⟨1, 1, 1, [0, 0], [0, 0], [[some 1], [some 2]]⟩
      (by unfold LongP.valid; decide),
    claim_C1_toWide_error_iff ⟨1, 2, 1, [0, 1], [0, 0], [[some 1], [some 2]]⟩
      (by unfold LongP.valid; decide)⟩

/-! ## Claim C5: `reindex` failure modes -/

inductive RxErr where
  | invalidFillMethod
  deriving DecidableEq, Repr

/-- Modelled from the spec: `tseries.getFillVec` is Cython code not among
the source files; per spec section 4.2, for each new label it yields the
source position under the policy — `""` (exact): position of the label in
the old index if present; `"PAD"`: position of the greatest old label
`<=` the query; `"BACKFILL"`: position of the smallest old label `>=` the
query; `none` when no such label exists. -/
def getFillVec (oldIdx newIdx : List ℤ) (kind : String) :
    List (Option ℕ) :=
  newIdx.map (fun x =>
    if kind = "PAD" then
      match (oldIdx.filter (fun y => decide (y ≤ x))).max? with
      | none => none
      | some m => some (oldIdx.indexOf m)
    else if kind = "BACKFILL" then
      match (oldIdx.filter (fun y => decide (x ≤ y))).min? with
      | none => none
      | some m => some (oldIdx.indexOf m)
    else
      if oldIdx.contains x then some (oldIdx.indexOf x) else none)

/-- Gather values through a fill vector; unmapped positions become NaN
(`newValues[-mask] = NaN`). -/
def applyFillVec (vals : List (Option ℚ)) (vec : List (Option ℕ)) :
    List (Option ℚ) :=
  vec.map (fun pos =>
    match pos with
    | some j => vals.getD j none
    | none => none)

/-- `Series.reindex`: `fillMethod=None` short-circuits to the exact
`tseries.reindex` gather; otherwise an empty old index returns an
all-NaN series BEFORE any policy validation, and then a policy whose
upper-casing is not `BACKFILL`, `PAD` or `''` raises
(`Don't recognize fillMethod`). -/
def seriesReindex (oldIdx : List ℤ) (vals : List (Option ℚ))
    (newIdx : List ℤ) (fillMethod : Option String) :
    Except RxErr (List (Option ℚ)) :=
  match fillMethod with
  | none => .ok (applyFillVec vals (getFillVec oldIdx newIdx ""))
  | some fm =>
    if oldIdx.length = 0 then .ok (newIdx.map (fun _ => none))
    else
      let fm2 := fm.toUpper
      if fm2 = "BACKFILL" ∨ fm2 = "PAD" ∨ fm2 = "" then
        .ok (applyFillVec vals (getFillVec oldIdx newIdx fm2))
      else .error .invalidFillMethod

/-- `DataMatrix.reindex`: an empty NEW index returns an empty frame, an
empty old index an all-NaN frame, both before policy validation; the
remaining path validates the upper-cased policy exactly as the series
does (`fillMethod=None` becomes `''` via `if not fillMethod`). -/
def matrixReindex (oldIdx : List ℤ) (rows : List (List (Option ℚ)))
    (ncols : ℕ) (newIdx : List ℤ) (fillMethod : Option String) :
    Except RxErr (List (List (Option ℚ))) :=
  if newIdx.length = 0 then .ok []
  else if oldIdx.length = 0 then
    .ok (newIdx.map (fun _ => List.replicate ncols none))
  else
    let fm2 := match fillMethod with
      | none => ""
      | some fm => fm.toUpper
    if fm2 = "BACKFILL" ∨ fm2 = "PAD" ∨ fm2 = "" then
      .ok ((getFillVec oldIdx newIdx fm2).map (fun pos =>
        match pos with
        | some j => rows.getD j (List.replicate ncols none)
        | none => List.replicate ncols none))
    else .error .invalidFillMethod

/-- C5.  The only failure either `reindex` can produce is the
invalid-fill-policy error, and it occurs only when a supplied policy
upper-cases to something other than `BACKFILL`, `PAD` or `''`; whenever
the policy is recognized (or absent), every combination of old index,
new index and values succeeds, with unresolvable labels mapped to NaN by
the mask rather than raising. -/
theorem claim_C5_reindex_failure (oldIdx newIdx : List ℤ)
    (vals : List (Option ℚ)) (rows : List (List (Option ℚ))) (ncols : ℕ)
    (fillMethod : Option String) :
    ((∃ e, seriesReindex oldIdx vals newIdx fillMethod = .error e) →
      ∃ s, fillMethod = some s ∧
        ¬ (s.toUpper = "BACKFILL" ∨ s.toUpper = "PAD" ∨ s.toUpper = "")) ∧
    ((∃ e, matrixReindex oldIdx rows ncols newIdx fillMethod = .error e) →
      ∃ s, fillMethod = some s ∧
        ¬ (s.toUpper = "BACKFILL" ∨ s.toUpper = "PAD" ∨ s.toUpper = "")) ∧
    (∀ s, fillMethod = some s →
      (s.toUpper = "BACKFILL" ∨ s.toUpper = "PAD" ∨ s.toUpper = "") →
      (seriesReindex oldIdx vals newIdx fillMethod).isOk = true ∧
        (matrixReindex oldIdx rows ncols newIdx fillMethod).isOk = true) ∧
    (fillMethod = none →
      (seriesReindex oldIdx vals newIdx fillMethod).isOk = true ∧
        (matrixReindex oldIdx rows ncols newIdx fillMethod).isOk = true) := by
  refine ⟨?_, ?_, ?_, ?_⟩
  · rintro ⟨e, he⟩
    rcases fillMethod with _ | fm
    · simp [seriesReindex] at he
    · refine ⟨fm, rfl, ?_⟩
      intro hrec
      simp only [seriesReindex] at he
      by_cases hlen : oldIdx.length = 0
      · rw [if_pos hlen] at he
        exact Except.noConfusion he
      · rw [if_neg hlen, if_pos hrec] at he
        exact Except.noConfusion he
  · rintro ⟨e, he⟩
    rcases fillMethod with _ | fm
    · simp only [matrixReindex] at he
      by_cases hnew : newIdx.length = 0
      · rw [if_pos hnew] at he
        exact Except.noConfusion he
      · rw [if_neg hnew] at he
        by_cases hlen : oldIdx.length = 0
        · rw [if_pos hlen] at he
          exact Except.noConfusion he
        · rw [if_neg hlen, if_pos (Or.inr (Or.inr trivial))] at he
          exact Except.noConfusion he
    · refine ⟨fm, rfl, ?_⟩
      intro hrec
      simp only [matrixReindex] at he
      by_cases hnew : newIdx.length = 0
      · rw [if_pos hnew] at he
        exact Except.noConfusion he
      · rw [if_neg hnew] at he
        by_cases hlen : oldIdx.length = 0
        · rw [if_pos hlen] at he
          exact Except.noConfusion he
        · rw [if_neg hlen, if_pos hrec] at he
          exact Except.noConfusion he
  · intro s hfm hrec
    subst hfm
    constructor
    · simp only [seriesReindex]
      by_cases hlen : oldIdx.length = 0
      · rw [if_pos hlen]; rfl
      · rw [if_neg hlen, if_pos hrec]; rfl
    · simp only [matrixReindex]
      by_cases hnew : newIdx.length = 0
      · rw [if_pos hnew]; rfl
      · rw [if_neg hnew]
        by_cases hlen : oldIdx.length = 0
        · rw [if_pos hlen]; rfl
        · rw [if_neg hlen, if_pos hrec]; rfl
  · intro hfm
    subst hfm
    constructor
    · rfl
    · simp only [matrixReindex]
      by_cases hnew : newIdx.length = 0
      · rw [if_pos hnew]; rfl
      · rw [if_neg hnew]
        by_cases hlen : oldIdx.length = 0
        · rw [if_pos hlen]; rfl
        · rw [if_neg hlen, if_pos (Or.inr (Or.inr trivial))]; rfl

/-- C5 witness: unrecognized `"interpolate"` is the only failure; `"pad"`
and an absent policy succeed on the same data. -/
theorem claim_C5_reindex_failure_witness :
    (∀ s, some "pad" = some s →
      (s.toUpper = "BACKFILL" ∨ s.toUpper = "PAD" ∨ s.toUpper = "") →
      (seriesReindex [1, 3] [some 10, some 30] [0, 1, 2]
          (some "pad")).isOk = true ∧
        (matrixReindex [1, 3] [[some 10], [some 30]] 1 [0, 1, 2]
          (some "pad")).isOk = true) ∧
    ((∃ e, seriesReindex [1, 3] [some 10, some 30] [0, 1, 2]
        (some "interpolate") = .error e) →
      ∃ s, (some "interpolate" : Option String) = some s ∧
        ¬ (s.toUpper = "BACKFILL" ∨ s.toUpper = "PAD" ∨ s.toUpper = "")) :=
  ⟨(claim_C5_reindex_failure [1, 3] [0, 1, 2] [some 10, some 30]
      [[some 10], [some 30]] 1 (some "pad")).2.2.1,
    (claim_C5_reindex_failure [1, 3] [0, 1, 2] [some 10, some 30]
      [[some 10], [some 30]] 1 (some "interpolate")).1⟩

/-! ## Claim C2: long -> wide -> long round trip -/

/-- The flat key of an observation row: the row's selector
`minor + K * major`. -/
def rowKey (K : ℕ) (r : ℕ × ℕ × List (Option ℚ)) : ℕ := r.2.1 + K * r.1

instance : IsTotal (ℕ × ℕ × List (Option ℚ))
    (fun a b => rowLE a b = true) := by
  refine ⟨fun a b => ?_⟩
  simp only [rowLE, Bool.or_eq_true, Bool.and_eq_true, decide_eq_true_eq,
    beq_iff_eq]
  omega

instance : IsTrans (ℕ × ℕ × List (Option ℚ))
    (fun a b => rowLE a b = true) := by
  refine ⟨fun a b c hab hbc => ?_⟩
  simp only [rowLE, Bool.or_eq_true, Bool.and_eq_true, decide_eq_true_eq,
    beq_iff_eq] at hab hbc ⊢
  omega

theorem rows_unzip3 :
    ∀ (ma mi : List ℕ) (vs : List (List (Option ℚ))),
      ma.length = mi.length → mi.length = vs.length →
      (ma.zip (mi.zip vs)).map (fun r => r.1) = ma ∧
        (ma.zip (mi.zip vs)).map (fun r => r.2.1) = mi ∧
        (ma.zip (mi.zip vs)).map (fun r => r.2.2) = vs := by
  intro ma
  induction ma with
  | nil =>
    intro mi vs h1 h2
    cases mi with
    | nil =>
      cases vs with
      | nil => simp
      | cons v tlv => simp at h2
    | cons b tlb => simp at h1
  | cons a tl ih =>
    intro mi vs h1 h2
    cases mi with
    | nil => simp at h1
    | cons b tlb =>
      cases vs with
      | nil => simp at h2
      | cons v tlv =>
        simp only [List.zip_cons_cons, List.map_cons]
        have h3 := ih tlb tlv (by simpa using h1) (by simpa using h2)
        refine ⟨?_, ?_, ?_⟩ <;> simp [h3.1, h3.2.1, h3.2.2]

theorem rows_unzip (p : LongP) (hv : p.valid) :
    p.majL = p.rows.map (fun r => r.1) ∧
      p.minL = p.rows.map (fun r => r.2.1) ∧
      p.vals = p.rows.map (fun r => r.2.2) := by
  obtain ⟨hlen, hvl, _, _, _⟩ := hv
  have h3 := rows_unzip3 p.majL p.minL p.vals hlen (by omega)
  unfold LongP.rows
  exact ⟨h3.1.symm, h3.2.1.symm, h3.2.2.symm⟩

theorem selector_eq_map_rows (K : ℕ) :
    ∀ (ma mi : List ℕ) (vs : List (List (Option ℚ))),
      ma.length = mi.length → mi.length = vs.length →
      List.zipWith (fun a b => b + K * a) ma mi =
        (ma.zip (mi.zip vs)).map (rowKey K) := by
  intro ma
  induction ma with
  | nil => intro mi vs _ _; rfl
  | cons a tl ih =>
    intro mi vs h1 h2
    cases mi with
    | nil => simp at h1
    | cons b tlb =>
      cases vs with
      | nil => simp at h2
      | cons v tlv =>
        simp only [List.zipWith_cons_cons, List.zip_cons_cons,
          List.map_cons]
        rw [ih tlb tlv (by simpa using h1) (by simpa using h2)]
        rfl

theorem flatAssign_lookup :
    ∀ (sel : List ℕ) (src : List (Option ℚ)),
      List.Pairwise (fun a b => a < b) sel → sel.length = src.length →
      ∀ f, flatAssign sel src f = ((sel.zip src).lookup f).getD none := by
  intro sel
  induction sel with
  | nil => intro src _ _ f; rfl
  | cons a tl ih =>
    intro src hpw hlen f
    cases src with
    | nil => simp at hlen
    | cons v vs =>
      have hpw2 := List.pairwise_cons.mp hpw
      rw [List.zip_cons_cons]
      by_cases hf : f = a
      · subst hf
        unfold flatAssign
        have hct : (f :: tl).contains f = true := by simp
        rw [if_pos hct]
        have hfil : (f :: tl).filter (fun s => decide (s < f)) = [] := by
          rw [List.filter_eq_nil_iff]
          intro x hx
          rcases List.mem_cons.mp hx with h | h
          · subst h
            simp
          · have := hpw2.1 x h
            simp
            omega
        rw [hfil]
        have hlk : List.lookup f ((f, v) :: tl.zip vs) = some v := by
          simp [List.lookup]
        rw [hlk]
        rfl
      · have hbe2 : (f == a) = false := beq_eq_false_iff_ne.mpr hf
        have hlk : List.lookup f ((a, v) :: tl.zip vs) =
            List.lookup f (tl.zip vs) := by
          simp [List.lookup, hbe2]
        rw [hlk, ← ih vs hpw2.2 (by simpa using hlen) f]
        unfold flatAssign
        have hcont : (a :: tl).contains f = tl.contains f := by
          simp [List.contains_cons, hbe2]
          intro h
          exact absurd h hf
        by_cases hmem : tl.contains f = true
        · rw [hcont, if_pos hmem, if_pos hmem]
          have hmem2 : f ∈ tl := by simpa using hmem
          have haf : a < f := hpw2.1 f hmem2
          have hfil : (a :: tl).filter (fun s => decide (s < f)) =
              a :: tl.filter (fun s => decide (s < f)) := by
            rw [List.filter_cons]
            have hdec : decide (a < f) = true := by simpa using haf
            rw [hdec]
            simp
          rw [hfil]
          simp [List.getD_cons_succ]
        · rw [hcont, if_neg hmem, if_neg hmem]

theorem lookup_map_value {β γ : Type} (g : β → γ) :
    ∀ (l : List (ℕ × β)) (a : ℕ),
      (l.map (fun kv => (kv.1, g kv.2))).lookup a = (l.lookup a).map g := by
  intro l
  induction l with
  | nil => intro a; rfl
  | cons kv tl ih =>
    intro a
    simp only [List.map_cons, List.lookup]
    by_cases h : (a == kv.1) = true
    · rw [h]
      rfl
    · rw [Bool.not_eq_true] at h
      rw [h]
      exact ih a

theorem map_getD_range {α : Type} (d : α) :
    ∀ (l : List α),
      (List.range l.length).map (fun i => l.getD i d) = l := by
  intro l
  induction l with
  | nil => rfl
  | cons x tl ih =>
    rw [List.length_cons, List.range_succ_eq_map, List.map_cons,
      List.map_map]
    have h1 : ((fun i => (x :: tl).getD i d) ∘ Nat.succ) =
        (fun i => tl.getD i d) := by
      funext i
      simp [List.getD_cons_succ]
    rw [h1, ih, List.getD_cons_zero]

theorem lookup_eq_some_iff {β : Type} :
    ∀ (l : List (ℕ × β)), List.Pairwise (fun x y => x.1 < y.1) l →
      ∀ f r, (l.lookup f = some r ↔ (f, r) ∈ l) := by
  intro l
  induction l with
  | nil => intro _ f r; simp
  | cons kv tl ih =>
    obtain ⟨k, v⟩ := kv
    intro hpw f r
    have hpw2 := List.pairwise_cons.mp hpw
    by_cases h : (f == k) = true
    · have hfk : f = k := by simpa using h
      subst hfk
      simp only [List.lookup, beq_self_eq_true]
      constructor
      · intro hs
        have : v = r := by simpa using hs
        subst this
        exact List.mem_cons_self _ _
      · intro hm
        rcases List.mem_cons.mp hm with h1 | h1
        · simp only [Prod.mk.injEq, true_and] at h1
          rw [h1]
        · have := hpw2.1 _ h1
          simp at this
    · have hfk : ¬ f = k := by simpa using h
      have hb : (f == k) = false := beq_eq_false_iff_ne.mpr hfk
      simp only [List.lookup, hb]
      rw [ih hpw2.2 f r]
      constructor
      · exact fun hm => List.mem_cons_of_mem _ hm
      · intro hm
        rcases List.mem_cons.mp hm with h1 | h1
        · simp only [Prod.mk.injEq] at h1
          exact absurd h1.1 hfk
        · exact h1

theorem filter_range_assoc {β : Type} (total : ℕ) (L : List (ℕ × β))
    (Pb : β → Bool) (q : ℕ → Bool)
    (hpw : List.Pairwise (fun x y => x.1 < y.1) L)
    (hlt : ∀ kv ∈ L, kv.1 < total)
    (hq : ∀ f, f < total → q f = ((L.lookup f).map Pb).getD false) :
    (List.range total).filter q =
      (L.filter (fun kv => Pb kv.2)).map (fun kv => kv.1) := by
  haveI : IsAntisymm ℕ (· < ·) :=
    ⟨fun a b h1 h2 => absurd (Nat.lt_trans h1 h2) (Nat.lt_irrefl a)⟩
  have hpw1 : List.Pairwise (· < ·) ((List.range total).filter q) :=
    List.Pairwise.sublist (List.filter_sublist _) (List.pairwise_lt_range total)
  have hpwF : List.Pairwise (fun x y => x.1 < y.1)
      (L.filter (fun kv => Pb kv.2)) :=
    List.Pairwise.sublist (List.filter_sublist _) hpw
  have hpw2 : List.Pairwise (· < ·)
      ((L.filter (fun kv => Pb kv.2)).map (fun kv => kv.1)) :=
    List.pairwise_map.mpr hpwF
  have hnd1 : ((List.range total).filter q).Nodup :=
    hpw1.imp (fun h => Nat.ne_of_lt h)
  have hnd2 : ((L.filter (fun kv => Pb kv.2)).map (fun kv => kv.1)).Nodup :=
    hpw2.imp (fun h => Nat.ne_of_lt h)
  have hmem : ∀ f, f ∈ (List.range total).filter q ↔
      f ∈ (L.filter (fun kv => Pb kv.2)).map (fun kv => kv.1) := by
    intro f
    rw [List.mem_filter, List.mem_range, List.mem_map]
    constructor
    · rintro ⟨hf, hqf⟩
      rw [hq f hf] at hqf
      match hlk : L.lookup f with
      | none =>
        rw [hlk] at hqf
        rw [show (Option.map Pb none).getD false = false from rfl] at hqf
        exact absurd hqf Bool.false_ne_true
      | some r =>
        rw [hlk] at hqf
        rw [show (Option.map Pb (some r)).getD false = Pb r from rfl] at hqf
        refine ⟨(f, r), ?_, rfl⟩
        rw [List.mem_filter]
        exact ⟨(lookup_eq_some_iff L hpw f r).mp hlk, hqf⟩
    · rintro ⟨kv, hkv, hfst⟩
      rw [List.mem_filter] at hkv
      have hmemL := hkv.1
      have hflt : f < total := by
        have := hlt kv hmemL
        omega
      refine ⟨hflt, ?_⟩
      rw [hq f hflt]
      have hlk : L.lookup f = some kv.2 := by
        rw [lookup_eq_some_iff L hpw f kv.2]
        have hkveq : kv = (f, kv.2) := by
          rw [← hfst]
        rw [← hkveq]
        exact hmemL
      rw [hlk]
      simpa using hkv.2
  have hperm : List.Perm ((List.range total).filter q)
      ((L.filter (fun kv => Pb kv.2)).map (fun kv => kv.1)) :=
    (List.perm_ext_iff_of_nodup hnd1 hnd2).mpr hmem
  exact List.eq_of_perm_of_sorted hperm hpw1 hpw2

/-- The wide panel `toWide` produces on a consistent input (the `.ok`
payload of `toWideF`). -/
def wideOf (s : LongP) : WideP :=
  ⟨s.I, s.Nmaj, s.Nmin,
    (List.range s.I).map (fun i =>
      (List.range (s.Nmaj * s.Nmin)).map
        (flatAssign (selectorList s)
          (s.vals.map (fun r => r.getD i none))))⟩

theorem toWideF_consistent (s : LongP) (hcons : consistentL s = true) :
    toWideF s = .ok (wideOf s) := by
  unfold toWideF wideOf
  rw [if_pos hcons]

theorem selectorList_eq (s : LongP) (hv : s.valid) :
    selectorList s = s.rows.map (rowKey s.Nmin) := by
  obtain ⟨hlen, hvl, _, _, _⟩ := hv
  unfold selectorList LongP.rows
  exact selector_eq_map_rows s.Nmin s.majL s.minL s.vals hlen (by omega)

theorem rowKey_lt_total (s : LongP) (hv : s.valid) :
    ∀ r ∈ s.rows, rowKey s.Nmin r < s.Nmaj * s.Nmin := by
  obtain ⟨hlen, hvl, hmaj, hmin, _⟩ := hv
  intro r hr
  unfold LongP.rows at hr
  have h1 : r.1 ∈ s.majL := (List.of_mem_zip hr).1
  have h2 : r.2 ∈ s.minL.zip s.vals := (List.of_mem_zip hr).2
  have h3 : r.2.1 ∈ s.minL := (List.of_mem_zip h2).1
  have ha := hmaj _ h1
  have hb := hmin _ h3
  unfold rowKey
  have hK : 0 < s.Nmin := by omega
  have hstep : s.Nmin * (r.1 + 1) = s.Nmin * r.1 + s.Nmin := by ring
  have h4 : s.Nmin * (r.1 + 1) ≤ s.Nmin * s.Nmaj :=
    Nat.mul_le_mul_left s.Nmin (by omega)
  have h5 : s.Nmin * s.Nmaj = s.Nmaj * s.Nmin := Nat.mul_comm _ _
  omega

theorem rows_length (s : LongP) (hv : s.valid) :
    s.rows.length = s.majL.length := by
  obtain ⟨hlen, hvl, _, _, _⟩ := hv
  unfold LongP.rows
  rw [List.length_zip, List.length_zip]
  omega

theorem rows_val_width (s : LongP) (hv : s.valid) :
    ∀ r ∈ s.rows, r.2.2.length = s.I := by
  intro r hr
  have hvals := (rows_unzip s hv).2.2
  have h2 : r.2 ∈ s.minL.zip s.vals := by
    unfold LongP.rows at hr
    exact (List.of_mem_zip hr).2
  have h3 : r.2.2 ∈ s.vals := (List.of_mem_zip h2).2
  exact hv.2.2.2.2 _ h3

theorem all_map_general {α β : Type} (f : α → β) (l : List α)
    (p : β → Bool) : (l.map f).all p = l.all (fun a => p (f a)) := by
  induction l with
  | nil => rfl
  | cons x tl ih => simp [ih]

theorem wideOf_plane_val (s : LongP) (hv : s.valid)
    (hsorted : List.Pairwise
      (fun a b => rowKey s.Nmin a < rowKey s.Nmin b) s.rows)
    (i f : ℕ) :
    flatAssign (selectorList s) (s.vals.map (fun r => r.getD i none)) f =
      (((s.rows.map (fun r => (rowKey s.Nmin r, r))).lookup f).map
        (fun r => r.2.2.getD i none)).getD none := by
  rw [selectorList_eq s hv]
  have hcol : s.vals.map (fun r => r.getD i none) =
      s.rows.map (fun r => r.2.2.getD i none) := by
    rw [(rows_unzip s hv).2.2, List.map_map]
    rfl
  rw [hcol]
  have hpw : List.Pairwise (fun a b => a < b)
      (s.rows.map (rowKey s.Nmin)) :=
    List.pairwise_map.mpr hsorted
  rw [flatAssign_lookup _ _ hpw
    (by rw [List.length_map, List.length_map]) f]
  congr 1
  rw [List.zip_map']
  rw [← lookup_map_value (fun r => r.2.2.getD i none)
    (s.rows.map (fun r => (rowKey s.Nmin r, r))) f]
  rw [List.map_map]
  rfl

theorem mem_rows_of_lookup (s : LongP)
    (hsorted : List.Pairwise
      (fun a b => rowKey s.Nmin a < rowKey s.Nmin b) s.rows)
    (f : ℕ) (r : ℕ × ℕ × List (Option ℚ))
    (hlk : (s.rows.map (fun r => (rowKey s.Nmin r, r))).lookup f = some r) :
    r ∈ s.rows ∧ rowKey s.Nmin r = f := by
  have hpwA : List.Pairwise (fun x y => x.1 < y.1)
      (s.rows.map (fun r => (rowKey s.Nmin r, r))) := by
    rw [List.pairwise_map]
    exact hsorted
  have hmem := (lookup_eq_some_iff _ hpwA f r).mp hlk
  rw [List.mem_map] at hmem
  obtain ⟨r2, hr2, he⟩ := hmem
  have h1 : r2 = r := (Prod.mk.injEq _ _ _ _ ▸ he).2
  have h2 : rowKey s.Nmin r2 = f := (Prod.mk.injEq _ _ _ _ ▸ he).1
  subst h1
  exact ⟨hr2, h2⟩

theorem allFiniteAt_wideOf (s : LongP) (hv : s.valid) (hI : 0 < s.I)
    (hsorted : List.Pairwise
      (fun a b => rowKey s.Nmin a < rowKey s.Nmin b) s.rows)
    (f : ℕ) (hf : f < s.Nmaj * s.Nmin) :
    allFiniteAt (wideOf s) f =
      (((s.rows.map (fun r => (rowKey s.Nmin r, r))).lookup f).map
        (fun r => r.2.2.all Option.isSome)).getD false := by
  unfold allFiniteAt wideOf
  dsimp only
  rw [all_map_general]
  have hplane : ∀ i : ℕ,
      ((List.range (s.Nmaj * s.Nmin)).map
        (flatAssign (selectorList s)
          (s.vals.map (fun r => r.getD i none)))).getD f none =
      flatAssign (selectorList s) (s.vals.map (fun r => r.getD i none)) f :=
    fun i => getD_map_range _ (s.Nmaj * s.Nmin) f none hf
  simp only [Function.comp_def, hplane, wideOf_plane_val s hv hsorted]
  match hlk : (s.rows.map (fun r => (rowKey s.Nmin r, r))).lookup f with
  | none =>
    have hrhs : (Option.map
        (fun (r : ℕ × ℕ × List (Option ℚ)) => r.2.2.all Option.isSome)
        none).getD false = false := rfl
    rw [hrhs, List.all_eq_false]
    refine ⟨0, List.mem_range.mpr hI, by decide⟩
  | some r =>
    have hrm := mem_rows_of_lookup s hsorted f r hlk
    have hw : r.2.2.length = s.I := rows_val_width s hv r hrm.1
    have h1 : ∀ a : ℕ,
        (Option.map (fun r => r.2.2.getD a none) (some r)).getD none =
          r.2.2.getD a none := fun a => rfl
    have h2 : (Option.map
        (fun (q : ℕ × ℕ × List (Option ℚ)) => q.2.2.all Option.isSome)
        (some r)).getD false = r.2.2.all Option.isSome := rfl
    simp only [h1, h2]
    conv_rhs => rw [← map_getD_range none r.2.2, all_map_general]
    rw [hw]

theorem filter_map_general {α β : Type} (f : α → β) (l : List α)
    (p : β → Bool) :
    (l.map f).filter p = (l.filter (fun a => p (f a))).map f := by
  induction l with
  | nil => rfl
  | cons x tl ih =>
    rw [List.map_cons, List.filter_cons, List.filter_cons]
    by_cases h : p (f x) = true
    · rw [h]
      simp only [if_true, List.map_cons, ih]
    · rw [Bool.not_eq_true] at h
      rw [h]
      simp only [Bool.false_eq_true, if_false, ih]

theorem kept_eq (s : LongP) (hv : s.valid) (hI : 0 < s.I)
    (hsorted : List.Pairwise
      (fun a b => rowKey s.Nmin a < rowKey s.Nmin b) s.rows) :
    (List.range (s.Nmaj * s.Nmin)).filter (allFiniteAt (wideOf s)) =
      (s.rows.filter (fun r => r.2.2.all Option.isSome)).map
        (rowKey s.Nmin) := by
  have hpwA : List.Pairwise (fun x y => x.1 < y.1)
      (s.rows.map (fun r => (rowKey s.Nmin r, r))) := by
    rw [List.pairwise_map]
    exact hsorted
  have hlt : ∀ kv ∈ s.rows.map (fun r => (rowKey s.Nmin r, r)),
      kv.1 < s.Nmaj * s.Nmin := by
    intro kv hkv
    rw [List.mem_map] at hkv
    obtain ⟨r, hr, he⟩ := hkv
    rw [← he]
    exact rowKey_lt_total s hv r hr
  rw [filter_range_assoc (s.Nmaj * s.Nmin)
    (s.rows.map (fun r => (rowKey s.Nmin r, r)))
    (fun r => r.2.2.all Option.isSome) (allFiniteAt (wideOf s))
    hpwA hlt (fun f hf => allFiniteAt_wideOf s hv hI hsorted f hf)]
  rw [filter_map_general, List.map_map]
  rfl

theorem row_minor_lt (s : LongP) (hv : s.valid) :
    ∀ r ∈ s.rows, r.2.1 < s.Nmin := by
  intro r hr
  unfold LongP.rows at hr
  have h2 : r.2 ∈ s.minL.zip s.vals := (List.of_mem_zip hr).2
  exact hv.2.2.2.1 _ (List.of_mem_zip h2).1

theorem wideLong_rows (s : LongP) (hv : s.valid) (hI : 0 < s.I)
    (hsorted : List.Pairwise
      (fun a b => rowKey s.Nmin a < rowKey s.Nmin b) s.rows) :
    (toLongF (wideOf s)).rows =
      s.rows.filter (fun r => r.2.2.all Option.isSome) := by
  have hkept := kept_eq s hv hI hsorted
  have hpwA : List.Pairwise (fun x y => x.1 < y.1)
      (s.rows.map (fun r => (rowKey s.Nmin r, r))) := by
    rw [List.pairwise_map]
    exact hsorted
  unfold toLongF LongP.rows
  dsimp only
  rw [show (wideOf s).Nmaj = s.Nmaj from rfl,
    show (wideOf s).Nmin = s.Nmin from rfl, hkept,
    List.map_map, List.map_map, List.map_map]
  have hg1 : (s.rows.filter (fun r => r.2.2.all Option.isSome)).map
      ((fun f => f / s.Nmin) ∘ rowKey s.Nmin) =
      (s.rows.filter (fun r => r.2.2.all Option.isSome)).map
        (fun r => r.1) := by
    refine List.map_congr_left ?_
    intro r hr
    have hrs := (List.mem_filter.mp hr).1
    have hmin := row_minor_lt s hv r hrs
    simp only [Function.comp_def]
    unfold rowKey
    rw [Nat.add_mul_div_left _ _ (by omega : 0 < s.Nmin),
      Nat.div_eq_of_lt hmin]
    omega
  have hg2 : (s.rows.filter (fun r => r.2.2.all Option.isSome)).map
      ((fun f => f % s.Nmin) ∘ rowKey s.Nmin) =
      (s.rows.filter (fun r => r.2.2.all Option.isSome)).map
        (fun r => r.2.1) := by
    refine List.map_congr_left ?_
    intro r hr
    have hrs := (List.mem_filter.mp hr).1
    have hmin := row_minor_lt s hv r hrs
    simp only [Function.comp_def]
    unfold rowKey
    rw [Nat.add_mul_mod_self_left, Nat.mod_eq_of_lt hmin]
  have hg3 : (s.rows.filter (fun r => r.2.2.all Option.isSome)).map
      ((fun f => (wideOf s).wvals.map (fun item => item.getD f none)) ∘
        rowKey s.Nmin) =
      (s.rows.filter (fun r => r.2.2.all Option.isSome)).map
        (fun r => r.2.2) := by
    refine List.map_congr_left ?_
    intro r hr
    have hrs := (List.mem_filter.mp hr).1
    have hw : r.2.2.length = s.I := rows_val_width s hv r hrs
    have hflt : rowKey s.Nmin r < s.Nmaj * s.Nmin :=
      rowKey_lt_total s hv r hrs
    have hlk : (s.rows.map (fun r => (rowKey s.Nmin r, r))).lookup
        (rowKey s.Nmin r) = some r := by
      rw [lookup_eq_some_iff _ hpwA]
      exact List.mem_map.mpr ⟨r, hrs, rfl⟩
    simp only [Function.comp_def]
    rw [show (wideOf s).wvals = (List.range s.I).map (fun i =>
      (List.range (s.Nmaj * s.Nmin)).map
        (flatAssign (selectorList s)
          (s.vals.map (fun q => q.getD i none)))) from rfl]
    rw [List.map_map]
    have hpt : ∀ i : ℕ,
        (((List.range (s.Nmaj * s.Nmin)).map
          (flatAssign (selectorList s)
            (s.vals.map (fun q => q.getD i none)))).getD
              (rowKey s.Nmin r) none) = r.2.2.getD i none := by
      intro i
      rw [getD_map_range _ (s.Nmaj * s.Nmin) _ none hflt]
      rw [wideOf_plane_val s hv hsorted i (rowKey s.Nmin r), hlk]
      rfl
    simp only [Function.comp_def, hpt]
    conv_rhs => rw [← map_getD_range none r.2.2]
    rw [hw]
  rw [hg1, hg2, hg3, List.zip_map', List.zip_map']
  have hid : (fun (r : ℕ × ℕ × List (Option ℚ)) =>
      (r.1, r.2.1, r.2.2)) = id := by
    funext r
    rfl
  rw [hid, List.map_id]
  rfl

theorem map_proj_id (l : List (ℕ × ℕ × List (Option ℚ))) :
    l.map (fun r => (r.1, r.2.1, r.2.2)) = l := by
  have hid : (fun (r : ℕ × ℕ × List (Option ℚ)) =>
      (r.1, r.2.1, r.2.2)) = id := by
    funext r
    rfl
  rw [hid, List.map_id]

theorem sortMajor_rows (p : LongP) :
    (sortMajor p).rows =
      p.rows.insertionSort (fun a b => rowLE a b = true) := by
  unfold sortMajor LongP.rows
  dsimp only
  rw [List.zip_map', List.zip_map', map_proj_id]

theorem sortMajor_rows_perm (p : LongP) :
    List.Perm (sortMajor p).rows p.rows := by
  rw [sortMajor_rows]
  exact List.perm_insertionSort _ _

theorem zip_pairs_eq_map_rows (p : LongP) (hv : p.valid) :
    p.majL.zip p.minL = p.rows.map (fun r => (r.1, r.2.1)) := by
  obtain ⟨h1, h2, h3⟩ := rows_unzip p hv
  conv_lhs => rw [h1, h2]
  rw [List.zip_map']

theorem sortMajor_valid (p : LongP) (hv : p.valid) :
    (sortMajor p).valid := by
  have hperm := sortMajor_rows_perm p
  unfold LongP.valid
  refine ⟨?_, ?_, ?_, ?_, ?_⟩
  · unfold sortMajor
    dsimp only
    rw [List.length_map, List.length_map]
  · unfold sortMajor
    dsimp only
    rw [List.length_map, List.length_map]
  · intro a ha
    have ha2 : a ∈ (sortMajor p).rows.map (fun r => r.1) := by
      unfold sortMajor LongP.rows at *
      dsimp only at *
      rw [List.zip_map', List.zip_map', map_proj_id]
      exact ha
    rw [List.mem_map] at ha2
    obtain ⟨r, hr, he⟩ := ha2
    have hrp : r ∈ p.rows := hperm.mem_iff.mp hr
    have h1 : r.1 ∈ p.majL := by
      unfold LongP.rows at hrp
      exact (List.of_mem_zip hrp).1
    rw [show (sortMajor p).Nmaj = p.Nmaj from rfl, ← he]
    exact hv.2.2.1 _ h1
  · intro b hb
    have hb2 : b ∈ (sortMajor p).rows.map (fun r => r.2.1) := by
      unfold sortMajor LongP.rows at *
      dsimp only at *
      rw [List.zip_map', List.zip_map', map_proj_id]
      exact hb
    rw [List.mem_map] at hb2
    obtain ⟨r, hr, he⟩ := hb2
    have hrp : r ∈ p.rows := hperm.mem_iff.mp hr
    rw [show (sortMajor p).Nmin = p.Nmin from rfl, ← he]
    exact row_minor_lt p hv r hrp
  · intro r hr
    have hr2 : r ∈ (sortMajor p).rows.map (fun q => q.2.2) := by
      unfold sortMajor LongP.rows at *
      dsimp only at *
      rw [List.zip_map', List.zip_map', map_proj_id]
      exact hr
    rw [List.mem_map] at hr2
    obtain ⟨q, hq, he⟩ := hr2
    have hqp : q ∈ p.rows := hperm.mem_iff.mp hq
    rw [show (sortMajor p).I = p.I from rfl, ← he]
    exact rows_val_width p hv q hqp

/-- The sorted rows of a duplicate-free panel are strictly increasing in
their flat key. -/
theorem sortMajor_strict (p : LongP) (hv : p.valid)
    (hcons : (p.majL.zip p.minL).Nodup) :
    List.Pairwise
      (fun a b => rowKey p.Nmin a < rowKey p.Nmin b)
      (sortMajor p).rows := by
  have hperm := sortMajor_rows_perm p
  have hsort : List.Pairwise (fun a b => rowLE a b = true)
      (sortMajor p).rows := by
    rw [sortMajor_rows]
    exact List.sorted_insertionSort _ _
  have hnd : List.Pairwise (fun a b => (a.1, a.2.1) ≠ (b.1, b.2.1))
      (sortMajor p).rows := by
    have h1 : ((sortMajor p).rows.map (fun r => (r.1, r.2.1))).Nodup := by
      have h2 : List.Perm ((sortMajor p).rows.map (fun r => (r.1, r.2.1)))
          (p.rows.map (fun r => (r.1, r.2.1))) := hperm.map _
      rw [h2.nodup_iff, ← zip_pairs_eq_map_rows p hv]
      exact hcons
    exact List.pairwise_map.mp h1
  have hand := hsort.and hnd
  refine hand.imp_of_mem ?_
  intro a b ha hb hab
  have hbmin : b.2.1 < p.Nmin :=
    row_minor_lt p hv b (hperm.mem_iff.mp hb)
  have hamin : a.2.1 < p.Nmin :=
    row_minor_lt p hv a (hperm.mem_iff.mp ha)
  obtain ⟨hle, hne⟩ := hab
  simp only [rowLE, Bool.or_eq_true, Bool.and_eq_true, decide_eq_true_eq,
    beq_iff_eq] at hle
  unfold rowKey
  rcases hle with h | ⟨heq, hmle⟩
  · have hstep : p.Nmin * (a.1 + 1) = p.Nmin * a.1 + p.Nmin := by ring
    have h4 : p.Nmin * (a.1 + 1) ≤ p.Nmin * b.1 :=
      Nat.mul_le_mul_left p.Nmin (by omega)
    omega
  · have hmne : a.2.1 ≠ b.2.1 := by
      intro hc
      exact hne (by rw [heq, hc])
    rw [heq]
    omega

theorem sortMajor_consistent (p : LongP) (hv : p.valid)
    (hcons : (p.majL.zip p.minL).Nodup) :
    consistentL (sortMajor p) = true := by
  unfold consistentL
  rw [decide_eq_true_eq]
  rw [panelKeys_nodup_iff (sortMajor p) (sortMajor_valid p hv)]
  rw [zip_pairs_eq_map_rows (sortMajor p) (sortMajor_valid p hv)]
  have h2 := (sortMajor_rows_perm p).map
    (fun (r : ℕ × ℕ × List (Option ℚ)) => (r.1, r.2.1))
  rw [h2.nodup_iff, ← zip_pairs_eq_map_rows p hv]
  exact hcons

theorem sortMajor_eq_of_perm (p q : LongP) (hv : p.valid) (hvq : q.valid)
    (hcons : (p.majL.zip p.minL).Nodup)
    (hqN : q.Nmaj = p.Nmaj) (hqK : q.Nmin = p.Nmin) (hqI : q.I = p.I)
    (hperm : List.Perm q.rows p.rows) :
    sortMajor q = sortMajor p := by
  have hsp := sortMajor_strict p hv hcons
  have hcq : (q.majL.zip q.minL).Nodup := by
    rw [zip_pairs_eq_map_rows q hvq]
    have h2 := hperm.map (fun (r : ℕ × ℕ × List (Option ℚ)) => (r.1, r.2.1))
    rw [h2.nodup_iff, ← zip_pairs_eq_map_rows p hv]
    exact hcons
  have hsq := sortMajor_strict q hvq hcq
  rw [hqK] at hsq
  have hpr : List.Perm (sortMajor q).rows (sortMajor p).rows :=
    ((sortMajor_rows_perm q).trans hperm).trans (sortMajor_rows_perm p).symm
  haveI : IsAntisymm (ℕ × ℕ × List (Option ℚ))
      (fun a b => rowKey p.Nmin a < rowKey p.Nmin b) :=
    ⟨fun a b h1 h2 => absurd (Nat.lt_trans h1 h2) (Nat.lt_irrefl _)⟩
  have hrows : (sortMajor q).rows = (sortMajor p).rows :=
    List.eq_of_perm_of_sorted hpr hsq hsp
  have hsorts : q.rows.insertionSort (fun a b => rowLE a b = true) =
      p.rows.insertionSort (fun a b => rowLE a b = true) := by
    rw [← sortMajor_rows, ← sortMajor_rows]
    exact hrows
  unfold sortMajor
  dsimp only
  rw [hsorts, hqI, hqN, hqK]

/-- C2 counterexample: a consistent, trivially sorted long panel with
ZERO items and no rows round-trips to ONE row, not zero — with no items,
`np.isfinite(values).all(axis=0)` is vacuously true at every cell, so
`toLong` manufactures a fully-observed row for every grid cell although
the original panel had none. -/
theorem claim_C2_counterexample :
    toWideF (sortMajor ⟨0, 1, 1, [], [], []⟩) = .ok ⟨0, 1, 1, []⟩ ∧
    (toLongF ⟨0, 1, 1, []⟩).rows = [(0, 0, [])] ∧
    (sortMajor ⟨0, 1, 1, [], [], []⟩).rows.filter
      (fun r => r.2.2.all Option.isSome) = [] := by
  exact ⟨by rfl, by rfl, by rfl⟩

/-- C2 (amended): for a well-formed long panel with no duplicate
`(major, minor)` pair and AT LEAST ONE item, sorting by major (ties by
minor) and converting to wide succeeds, and converting back with
observation filtering returns exactly the sorted panel's fully-observed
rows — a permutation of the original panel's fully-observed rows — and
the sorted panel (hence the whole round trip) is independent of the
order in which the rows were originally given.  With zero items the
round trip instead manufactures a row for every grid cell (see the
counterexample). -/
theorem claim_C2_roundtrip (p q : LongP)
    (hv : p.valid) (hvq : q.valid) (hI : 0 < p.I)
    (hcons : (p.majL.zip p.minL).Nodup)
    (hqN : q.Nmaj = p.Nmaj) (hqK : q.Nmin = p.Nmin) (hqI : q.I = p.I)
    (hperm : List.Perm q.rows p.rows) :
    toWideF (sortMajor p) = .ok (wideOf (sortMajor p)) ∧
    (toLongF (wideOf (sortMajor p))).rows =
      (sortMajor p).rows.filter (fun r => r.2.2.all Option.isSome) ∧
    List.Perm (toLongF (wideOf (sortMajor p))).rows
      (p.rows.filter (fun r => r.2.2.all Option.isSome)) ∧
    sortMajor q = sortMajor p := by
  have hvs : (sortMajor p).valid := sortMajor_valid p hv
  have hIs : 0 < (sortMajor p).I := hI
  have hstrict := sortMajor_strict p hv hcons
  have hconsS : consistentL (sortMajor p) = true :=
    sortMajor_consistent p hv hcons
  refine ⟨toWideF_consistent _ hconsS,
    wideLong_rows _ hvs hIs hstrict, ?_,
    sortMajor_eq_of_perm p q hv hvq hcons hqN hqK hqI hperm⟩
  rw [wideLong_rows _ hvs hIs hstrict]
  exact (sortMajor_rows_perm p).filter _

/-- C2 witness: a two-row panel given in reversed order. -/
theorem claim_C2_roundtrip_witness :
    toWideF (sortMajor ⟨1, 2, 1, [0, 1], [0, 0], [[some 1], [some 2]]⟩) =
      .ok (wideOf (sortMajor ⟨1, 2, 1, [0, 1], [0, 0],
        [[some 1], [some 2]]⟩)) ∧
    (toLongF (wideOf (sortMajor ⟨1, 2, 1, [0, 1], [0, 0],
        [[some 1], [some 2]]⟩))).rows =
      (sortMajor ⟨1, 2, 1, [0, 1], [0, 0],
        [[some 1], [some 2]]⟩).rows.filter
          (fun r => r.2.2.all Option.isSome) ∧
    List.Perm
      (toLongF (wideOf (sortMajor ⟨1, 2, 1, [0, 1], [0, 0],
        [[some 1], [some 2]]⟩))).rows
      ((⟨1, 2, 1, [0, 1], [0, 0],
        [[some 1], [some 2]]⟩ : LongP).rows.filter
          (fun r => r.2.2.all Option.isSome)) ∧
    sortMajor ⟨1, 2, 1, [1, 0], [0, 0], [[some 2], [some 1]]⟩ =
      sortMajor ⟨1, 2, 1, [0, 1], [0, 0], [[some 1], [some 2]]⟩ :=
  claim_C2_roundtrip
    ⟨1, 2, 1, [0, 1], [0, 0], [[some 1], [some 2]]⟩
    ⟨1, 2, 1, [1, 0], [0, 0], [[some 2], [some 1]]⟩
    (by unfold LongP.valid; decide) (by unfold LongP.valid; decide)
    (by decide) (by decide) (by decide) (by decide) (by decide)
    (by decide)
